import Mathlib

/-! Verification of `grpc_core::RingBuffer` (src/core/util/ring_buffer.h).

A shallow embedding of the fixed-capacity ring buffer.  A `Node*` is the index of
a slot of `data_` (`none` is `nullptr`), the template parameter `capacity` is a
natural number, a default-constructed `T` is `default`, and what a slot holds
after `std::move` took its value is given by the function `movedFrom`
(the identity for trivially copyable element types such as `int`).
-/

namespace grpc_core

/-- One slot of the ring, `struct Node { T data; Node* next; }`: the value and the
index of the next slot. -/
structure Node (T : Type) where
  data : T
  next : Nat

/-- The class `RingBuffer<T, capacity>`: the slot vector `data_` and the two
cursors `head_` (oldest) and `tail_` (newest). -/
structure RingBuffer (T : Type) (capacity : Nat) where
  data_ : List (Node T)
  head_ : Option Nat
  tail_ : Option Nat

/-- The class `RingBufferIterator`: `buffer_` is `none` for `nullptr` and `some ()`
for the address of the buffer the iterator was built from. -/
structure RingBufferIterator where
  buffer_ : Option Unit
  head_ : Option Nat
  tail_ : Option Nat
deriving DecidableEq

/-- The operations a caller can apply to a buffer. -/
inductive Call (T : Type) where
  | Append (x : T)
  | PopIfNotEmpty
  | Clear

/-- What a caller can do with a buffer: its three mutating methods and the
begin-to-end iteration loop. -/
inductive Action (T : Type) where
  | Append (x : T)
  | PopIfNotEmpty
  | Clear
  | Iterate

/-- What a caller sees: the result of a `PopIfNotEmpty` call, or the values read
by an iteration loop (`none` when the loop did not reach `end()`). -/
inductive Observation (T : Type) where
  | popped (r : Option T)
  | iterated (r : Option (List T))
deriving DecidableEq

section Reference

variable {T : Type}

/-! ## The reference bounded queue of the specification -/

/-- Reference `Append`: drops the first element when the list already has `N`
elements, then adds `x` at the back. -/
def refAppend (N : Nat) (l : List T) (x : T) : List T :=
  (if l.length = N then l.drop 1 else l) ++ [x]

/-- Reference `PopIfNotEmpty`: the first element if there is one, and the list
without it. -/
def refPop (l : List T) : Option T × List T :=
  (l.head?, l.tail)

/-- Reference `Clear`: the empty list. -/
def refClear (_l : List T) : List T := []

/-- Runs a sequence of calls on the reference queue: the results of the pops, in
order, and the final list. -/
def refRun (N : Nat) : List T → List (Call T) → List (Option T) × List T
  | l, [] => ([], l)
  | l, Call.Append x :: cs => refRun N (refAppend N l x) cs
  | l, Call.PopIfNotEmpty :: cs =>
    let rest := refRun N (refPop l).2 cs
    ((refPop l).1 :: rest.1, rest.2)
  | l, Call.Clear :: cs => refRun N (refClear l) cs

/-- Reference queue after appending the values of a list in order. -/
def refAppendAll (N : Nat) : List T → List T → List T
  | l, [] => l
  | l, x :: xs => refAppendAll N (refAppend N l x) xs

end Reference

section Embedding

variable {T : Type} [Inhabited T] {capacity : Nat}

/-- The constructor `RingBuffer()`: `capacity` default slots, slot `i` linked to
slot `(i + 1) % capacity`; both cursors null. -/
def RingBuffer.mk0 (T : Type) [Inhabited T] (capacity : Nat) : RingBuffer T capacity :=
  { data_ := (List.range capacity).map (fun i => { data := default, next := (i + 1) % capacity }),
    head_ := none,
    tail_ := none }

/-- Dereference of a slot pointer, `*p` for `p = &data_[i]`. -/
def RingBuffer.node (b : RingBuffer T capacity) (i : Nat) : Node T :=
  b.data_.getD i { data := default, next := i }

/-- The assignment `p->data = x` for `p = &data_[i]`. -/
def RingBuffer.store (b : RingBuffer T capacity) (i : Nat) (x : T) : List (Node T) :=
  b.data_.set i { data := x, next := (b.node i).next }

/-- The method `Append(T data)`. -/
def RingBuffer.Append (b : RingBuffer T capacity) (data : T) : RingBuffer T capacity :=
  match b.tail_ with
  | none => { data_ := b.store 0 data, head_ := some 0, tail_ := some 0 }
  | some t =>
    let head1 :=
      if some (b.node t).next = b.head_ then b.head_.map (fun h => (b.node h).next)
      else b.head_
    let tail1 := (b.node t).next
    { data_ := b.store tail1 data, head_ := head1, tail_ := some tail1 }

/-- The method `PopIfNotEmpty()`: the returned optional and the state left. -/
def RingBuffer.PopIfNotEmpty (movedFrom : T → T) (b : RingBuffer T capacity) :
    Option T × RingBuffer T capacity :=
  match b.head_, b.tail_ with
  | some h, some t =>
    let data := (b.node h).data
    let data1 := b.store h (movedFrom data)
    if h = t then (some data, { data_ := data1, head_ := none, tail_ := none })
    else (some data, { data_ := data1, head_ := some (b.node h).next, tail_ := some t })
  | _, _ => (none, b)

/-- The method `Clear()`. -/
def RingBuffer.Clear (b : RingBuffer T capacity) : RingBuffer T capacity :=
  { b with head_ := none, tail_ := none }

/-- The method `begin()`, that is the constructor `RingBufferIterator(buffer)`. -/
def RingBuffer.begin (b : RingBuffer T capacity) : RingBufferIterator :=
  if b.head_ = none ∨ b.tail_ = none then
    { buffer_ := none, head_ := b.head_, tail_ := b.tail_ }
  else
    { buffer_ := some (), head_ := b.head_, tail_ := b.tail_ }

/-- The method `end()`, that is the default constructor `RingBufferIterator()`. -/
def RingBuffer.end_ (_b : RingBuffer T capacity) : RingBufferIterator :=
  { buffer_ := none, head_ := none, tail_ := none }

/-- The iterator's `operator==`. -/
def RingBufferIterator.operatorEq (it rhs : RingBufferIterator) : Bool :=
  it.buffer_ == rhs.buffer_ && it.head_ == rhs.head_ && it.tail_ == rhs.tail_

/-- The iterator's `operator!=`. -/
def RingBufferIterator.operatorNe (it rhs : RingBufferIterator) : Bool :=
  !(it.operatorEq rhs)

/-- The iterator's `operator++()`; the slots it follows are those of `b`. -/
def RingBufferIterator.operatorInc (b : RingBuffer T capacity) (it : RingBufferIterator) :
    RingBufferIterator :=
  if it.head_ = it.tail_ then { buffer_ := none, head_ := none, tail_ := none }
  else { it with head_ := it.head_.map (fun h => (b.node h).next) }

/-- The iterator's `operator*()`, reading `head_->data` in `b`. -/
def RingBufferIterator.operatorStar (b : RingBuffer T capacity) (it : RingBufferIterator) : T :=
  match it.head_ with
  | some h => (b.node h).data
  | none => default

/-- The loop `for (; it != end(); ++it) yield *it`, allowed `fuel` increments:
`none` when `end()` has not been reached by then. -/
def RingBuffer.collect (b : RingBuffer T capacity) : Nat → RingBufferIterator → Option (List T)
  | 0, it => if it.operatorNe b.end_ then none else some []
  | fuel + 1, it =>
    if it.operatorNe b.end_ then
      (b.collect fuel (it.operatorInc b)).map (fun l => it.operatorStar b :: l)
    else some []

/-- The loop `for (auto it = begin(); it != end(); ++it) yield *it`. -/
def RingBuffer.iterate (b : RingBuffer T capacity) (fuel : Nat) : Option (List T) :=
  b.collect fuel b.begin

/-- Runs a sequence of calls: the results of the `PopIfNotEmpty` calls, in order,
and the final state. -/
def RingBuffer.run (movedFrom : T → T) :
    RingBuffer T capacity → List (Call T) → List (Option T) × RingBuffer T capacity
  | b, [] => ([], b)
  | b, Call.Append x :: cs => RingBuffer.run movedFrom (b.Append x) cs
  | b, Call.PopIfNotEmpty :: cs =>
    let r := b.PopIfNotEmpty movedFrom
    let rest := RingBuffer.run movedFrom r.2 cs
    (r.1 :: rest.1, rest.2)
  | b, Call.Clear :: cs => RingBuffer.run movedFrom b.Clear cs

/-- Appends the values of a list in order. -/
def RingBuffer.appendAll (b : RingBuffer T capacity) : List T → RingBuffer T capacity
  | [] => b
  | x :: xs => RingBuffer.appendAll (b.Append x) xs

/-- Calls `PopIfNotEmpty` `m` times: the results in order and the final state. -/
def RingBuffer.popMany (movedFrom : T → T) :
    RingBuffer T capacity → Nat → List (Option T) × RingBuffer T capacity
  | b, 0 => ([], b)
  | b, m + 1 =>
    let r := b.PopIfNotEmpty movedFrom
    let rest := RingBuffer.popMany movedFrom r.2 m
    (r.1 :: rest.1, rest.2)

/-- The states a freshly constructed buffer reaches through its public methods. -/
inductive Reachable (movedFrom : T → T) : RingBuffer T capacity → Prop
  | fresh : Reachable movedFrom (RingBuffer.mk0 T capacity)
  | append (b : RingBuffer T capacity) (x : T) :
      Reachable movedFrom b → Reachable movedFrom (b.Append x)
  | pop (b : RingBuffer T capacity) :
      Reachable movedFrom b → Reachable movedFrom (b.PopIfNotEmpty movedFrom).2
  | clear (b : RingBuffer T capacity) :
      Reachable movedFrom b → Reachable movedFrom b.Clear

/-- The slot reached from slot `i` by following `next` `k` times. -/
def RingBuffer.follow (b : RingBuffer T capacity) : Nat → Nat → Nat
  | 0, i => i
  | k + 1, i => (b.node (RingBuffer.follow b k i)).next

/-- The iterator obtained from `it` by applying `operator++` `n` times. -/
def RingBuffer.advance (b : RingBuffer T capacity) : Nat → RingBufferIterator → RingBufferIterator
  | 0, it => it
  | n + 1, it => (RingBuffer.advance b n it).operatorInc b

/-- The fullness test of `Append`, `tail_->next == head_`, taken once `tail_` is
known to be set (`false` on the first-append path, which never evaluates it). -/
def RingBuffer.tailNextIsHead (b : RingBuffer T capacity) : Bool :=
  match b.tail_ with
  | none => false
  | some t => some (b.node t).next == b.head_

/-- Runs a sequence of actions: what the `PopIfNotEmpty` calls returned and what
the begin-to-end loops (each allowed `fuel` increments) read, in order. -/
def RingBuffer.observe (movedFrom : T → T) (fuel : Nat) :
    RingBuffer T capacity → List (Action T) → List (Observation T)
  | _, [] => []
  | b, Action.Append x :: as => RingBuffer.observe movedFrom fuel (b.Append x) as
  | b, Action.PopIfNotEmpty :: as =>
    Observation.popped (b.PopIfNotEmpty movedFrom).1
      :: RingBuffer.observe movedFrom fuel (b.PopIfNotEmpty movedFrom).2 as
  | b, Action.Clear :: as => RingBuffer.observe movedFrom fuel b.Clear as
  | b, Action.Iterate :: as =>
    Observation.iterated (b.iterate fuel) :: RingBuffer.observe movedFrom fuel b as

/-! ## The abstraction relation -/

/-- The linkage the constructor sets up: `capacity` slots, slot `i` linked to
slot `(i + 1) % capacity`. -/
def WellLinked (b : RingBuffer T capacity) : Prop :=
  b.data_.length = capacity ∧ ∀ i, i < capacity → (b.node i).next = (i + 1) % capacity

/-- The value held by the `i`-th slot after slot `h` in cyclic order. -/
def slotVal (b : RingBuffer T capacity) (h i : Nat) : T :=
  (b.node ((h + i) % capacity)).data

/-- The buffer `b` represents the list `l`: either both cursors are null and `l`
is empty, or `head_` is a slot `h`, `tail_` is the slot `k` steps after it, and
`l` is what the `k + 1` slots from `h` on hold. -/
def Rep (b : RingBuffer T capacity) (l : List T) : Prop :=
  WellLinked b ∧
  ((l = [] ∧ b.head_ = none ∧ b.tail_ = none) ∨
   ∃ h k, h < capacity ∧ k < capacity ∧ b.head_ = some h ∧
     b.tail_ = some ((h + k) % capacity) ∧ l = (List.range (k + 1)).map (slotVal b h))

end Embedding

section ReferenceFacts

variable {T : Type}

/-! ## Facts about the reference queue -/

theorem refAppend_eq_drop (N : Nat) (hN : 0 < N) (l : List T) (x : T) (hl : l.length ≤ N) :
    refAppend N l x = (l ++ [x]).drop ((l ++ [x]).length - N) := by
  unfold refAppend
  by_cases h : l.length = N
  · have e : (l ++ [x]).length - N = 1 := by simp; omega
    rw [if_pos h, e, List.drop_append_of_le_length (by omega)]
  · have e : (l ++ [x]).length - N = 0 := by simp; omega
    rw [if_neg h, e, List.drop_zero]

theorem refAppendAll_eq_drop (N : Nat) (hN : 0 < N) (xs : List T) :
    ∀ l : List T, l.length ≤ N →
      refAppendAll N l xs = (l ++ xs).drop ((l ++ xs).length - N) := by
  induction xs with
  | nil =>
    intro l hl
    have e : (l ++ []).length - N = 0 := by simp; omega
    rw [refAppendAll, e, List.drop_zero, List.append_nil]
  | cons x xs ih =>
    intro l hl
    have h1 := refAppend_eq_drop N hN l x hl
    have hlen : (refAppend N l x).length ≤ N := by
      rw [h1, List.length_drop]
      omega
    rw [refAppendAll, ih _ hlen, h1]
    have hle : (l ++ [x]).length - N ≤ (l ++ [x]).length := Nat.sub_le _ _
    rw [← List.drop_append_of_le_length hle, List.drop_drop, List.append_assoc]
    simp only [List.singleton_append, List.length_drop, List.length_append, List.length_cons,
      List.length_nil]
    congr 1
    omega

theorem refRun_mem (N : Nat) (v : T) (cs : List (Call T)) :
    ∀ l : List T, some v ∈ (refRun N l cs).1 → v ∈ l ∨ Call.Append v ∈ cs := by
  induction cs with
  | nil => intro l h; simp [refRun] at h
  | cons c cs ih =>
    intro l h
    cases c with
    | Append x =>
      rcases ih _ h with h1 | h1
      · unfold refAppend at h1
        rcases List.mem_append.mp h1 with h2 | h2
        · left
          split_ifs at h2
          · exact List.mem_of_mem_drop h2
          · exact h2
        · right
          rw [List.mem_singleton.mp h2]
          exact List.mem_cons_self _ _
      · right
        exact List.mem_cons_of_mem _ h1
    | PopIfNotEmpty =>
      simp only [refRun, refPop, List.mem_cons] at h
      rcases h with h1 | h1
      · left
        exact List.mem_of_mem_head? (by rw [← h1]; rfl)
      · rcases ih _ h1 with h2 | h2
        · left
          exact List.mem_of_mem_tail h2
        · right
          exact List.mem_cons_of_mem _ h2
    | Clear =>
      rcases ih _ h with h1 | h1
      · simp [refClear] at h1
      · right
        exact List.mem_cons_of_mem _ h1

theorem refAppendAll_of_room (N : Nat) (hN : 0 < N) (l xs : List T)
    (h : l.length + xs.length ≤ N) : refAppendAll N l xs = l ++ xs := by
  have e : (l ++ xs).length - N = 0 := by simp; omega
  rw [refAppendAll_eq_drop N hN xs l (by omega), e, List.drop_zero]

theorem range_map_lookup (l : List T) :
    (List.range (l.length + 1)).map (fun i => l[i]?) = l.map some ++ [none] := by
  induction l with
  | nil => rfl
  | cons a l ih =>
    rw [List.length_cons, List.range_succ_eq_map, List.map_cons, List.map_map]
    simp only [List.map_cons, List.cons_append]
    rw [← ih]
    congr 1
    · simp
    · apply List.map_congr_left
      intro i _
      simp

end ReferenceFacts

section Proofs

variable {T : Type} [Inhabited T] {capacity : Nat}

/-! ## Cyclic index arithmetic -/

theorem mod_add_inj {N h a c : Nat} (ha : a < N) (hc : c < N)
    (e : (h + a) % N = (h + c) % N) : a = c :=
  Nat.ModEq.eq_of_lt_of_lt (Nat.ModEq.add_left_cancel' h e) ha hc

theorem mod_succ (N h i : Nat) : ((h + i) % N + 1) % N = (h + (i + 1)) % N := by
  rw [Nat.mod_add_mod, Nat.add_assoc]

/-! ## Slot reads after a slot write -/

theorem node_of_store (b c : RingBuffer T capacity) (i : Nat) (x : T)
    (hd : c.data_ = b.store i x) (hi : i < b.data_.length) (j : Nat) :
    c.node j = if j = i then { data := x, next := (b.node i).next } else b.node j := by
  simp only [RingBuffer.node, hd, RingBuffer.store, List.getD_eq_getElem?_getD,
    List.getElem?_set]
  by_cases hji : j = i
  · subst hji
    simp [hi]
  · have : ¬ i = j := fun h => hji h.symm
    simp [hji, this]

theorem wellLinked_store (b : RingBuffer T capacity) (i : Nat) (x : T) (hd tl : Option Nat)
    (hi : i < capacity) (hb : WellLinked b) :
    WellLinked ({ data_ := b.store i x, head_ := hd, tail_ := tl } : RingBuffer T capacity) := by
  obtain ⟨hlen, hnext⟩ := hb
  refine ⟨by simp [RingBuffer.store, hlen], ?_⟩
  intro j hj
  rw [node_of_store b _ i x rfl (by omega) j]
  by_cases hji : j = i
  · subst hji
    simp [hnext j hj]
  · simp [hji, hnext j hj]

theorem slotVal_store (b : RingBuffer T capacity) (i : Nat) (x : T) (hd tl : Option Nat)
    (hi : i < b.data_.length) (h j : Nat) :
    slotVal ({ data_ := b.store i x, head_ := hd, tail_ := tl } : RingBuffer T capacity) h j
      = if (h + j) % capacity = i then x else slotVal b h j := by
  unfold slotVal
  rw [node_of_store b _ i x rfl hi]
  split_ifs <;> rfl

theorem slotVal_shift (b : RingBuffer T capacity) (h i : Nat) :
    slotVal b ((h + 1) % capacity) i = slotVal b h (i + 1) := by
  unfold slotVal
  rw [Nat.mod_add_mod, Nat.add_assoc, Nat.add_comm 1 i]

theorem slotVal_zero (b : RingBuffer T capacity) (h : Nat) (hh : h < capacity) :
    slotVal b h 0 = (b.node h).data := by
  unfold slotVal
  rw [Nat.add_zero, Nat.mod_eq_of_lt hh]

theorem mod_add_ne_self {N h a : Nat} (hh : h < N) (ha : a < N) (h0 : a ≠ 0) :
    (h + a) % N ≠ h := by
  intro e
  have e2 : (h + a) % N = (h + 0) % N := by rw [e, Nat.add_zero, Nat.mod_eq_of_lt hh]
  exact h0 (mod_add_inj ha (by omega) e2)

theorem mod_add_cap {N h : Nat} (hh : h < N) : (h + N) % N = h := by
  rw [Nat.add_mod_right, Nat.mod_eq_of_lt hh]

/-! ## Each method preserves the abstraction relation -/

theorem wellLinked_mk0 (T : Type) [Inhabited T] (capacity : Nat) :
    WellLinked (RingBuffer.mk0 T capacity) := by
  refine ⟨by simp [RingBuffer.mk0], ?_⟩
  intro i hi
  simp [RingBuffer.node, RingBuffer.mk0, List.getD_eq_getElem?_getD, List.getElem?_range hi]

theorem rep_mk0 (T : Type) [Inhabited T] (capacity : Nat) :
    Rep (RingBuffer.mk0 T capacity) [] :=
  ⟨wellLinked_mk0 T capacity, Or.inl ⟨rfl, rfl, rfl⟩⟩

theorem rep_clear (b : RingBuffer T capacity) (l : List T) (hr : Rep b l) : Rep b.Clear [] :=
  ⟨hr.1, Or.inl ⟨rfl, rfl, rfl⟩⟩

theorem rep_length_le (b : RingBuffer T capacity) (l : List T) (hr : Rep b l) :
    l.length ≤ capacity := by
  rcases hr.2 with ⟨hl, _, _⟩ | ⟨h, k, _, hk, _, _, hl⟩
  · simp [hl]
  · rw [hl]
    simp
    omega

theorem rep_append (b : RingBuffer T capacity) (l : List T) (x : T) (hN : 0 < capacity)
    (hr : Rep b l) : Rep (b.Append x) (refAppend capacity l x) := by
  obtain ⟨hw, hcase⟩ := hr
  have hlen := hw.1
  rcases hcase with ⟨hl, _, ht⟩ | ⟨h, k, hh, hk, hhead, htail, hl⟩
  · -- empty buffer: the first-append path
    have hA : b.Append x = { data_ := b.store 0 x, head_ := some 0, tail_ := some 0 } := by
      simp [RingBuffer.Append, ht]
    rw [hA]
    refine ⟨wellLinked_store b 0 x _ _ hN hw, Or.inr ⟨0, 0, hN, hN, rfl, ?_, ?_⟩⟩
    · simp [Nat.mod_eq_of_lt hN]
    · subst hl
      have hne : ¬ (0 = capacity) := by omega
      have h1 : List.range 1 = [0] := rfl
      simp [refAppend, hne, h1, slotVal_store b 0 x _ _ (by omega), Nat.mod_eq_of_lt hN]
  · have hnext : (b.node ((h + k) % capacity)).next = (h + (k + 1)) % capacity := by
      rw [hw.2 _ (Nat.mod_lt _ hN), mod_succ]
    have hllen : l.length = k + 1 := by rw [hl]; simp
    by_cases hfull : k + 1 = capacity
    · -- full buffer: the oldest element is evicted
      have hwrap : (h + (k + 1)) % capacity = h := by rw [hfull]; exact mod_add_cap hh
      have hA : b.Append x =
          { data_ := b.store h x, head_ := some ((h + 1) % capacity), tail_ := some h } := by
        simp [RingBuffer.Append, htail, hhead, hnext, hwrap, hw.2 h hh]
      rw [hA]
      refine ⟨wellLinked_store b h x _ _ hh hw,
        Or.inr ⟨(h + 1) % capacity, k, Nat.mod_lt _ hN, hk, rfl, ?_, ?_⟩⟩
      · rw [Nat.mod_add_mod, Nat.add_assoc, Nat.add_comm 1 k, hwrap]
      · have hdrop : (if l.length = capacity then l.drop 1 else l)
            = (List.range k).map (fun i => slotVal b h (i + 1)) := by
          rw [if_pos (by omega), hl, List.range_succ_eq_map]
          simp [List.map_map, Function.comp_def]
        unfold refAppend
        rw [hdrop, List.range_succ, List.map_append]
        congr 1
        · apply List.map_congr_left
          intro i hi
          have hi2 : i < k := List.mem_range.mp hi
          have : (h + 1 + i) % capacity ≠ h := by
            rw [Nat.add_assoc]
            exact mod_add_ne_self hh (by omega) (by omega)
          rw [slotVal_store b h x _ _ (by omega), Nat.mod_add_mod, if_neg this, slotVal_shift]
        · simp only [List.map_cons, List.map_nil]
          rw [slotVal_store b h x _ _ (by omega), Nat.mod_add_mod, Nat.add_assoc,
            Nat.add_comm 1 k, hwrap, if_pos rfl]
    · -- room left: nothing is evicted
      have hk1 : k + 1 < capacity := by omega
      have hne : (h + (k + 1)) % capacity ≠ h := mod_add_ne_self hh hk1 (by omega)
      have hA : b.Append x =
          { data_ := b.store ((h + (k + 1)) % capacity) x, head_ := some h,
            tail_ := some ((h + (k + 1)) % capacity) } := by
        simp [RingBuffer.Append, htail, hhead, hnext, hne]
      rw [hA]
      have hlt : (h + (k + 1)) % capacity < capacity := Nat.mod_lt _ hN
      refine ⟨wellLinked_store b _ x _ _ hlt hw,
        Or.inr ⟨h, k + 1, hh, hk1, rfl, rfl, ?_⟩⟩
      unfold refAppend
      rw [if_neg (by omega), List.range_succ (k + 1), List.map_append, hl]
      congr 1
      · apply List.map_congr_left
        intro i hi
        have hi2 : i < k + 1 := List.mem_range.mp hi
        rw [slotVal_store b _ x _ _ (by omega)]
        have : (h + i) % capacity ≠ (h + (k + 1)) % capacity := by
          intro e
          have := mod_add_inj (by omega) hk1 e
          omega
        rw [if_neg this]
      · simp only [List.map_cons, List.map_nil]
        rw [slotVal_store b _ x _ _ (by omega), if_pos rfl]

theorem rep_pop (movedFrom : T → T) (b : RingBuffer T capacity) (l : List T) (hN : 0 < capacity)
    (hr : Rep b l) :
    (b.PopIfNotEmpty movedFrom).1 = l.head? ∧ Rep (b.PopIfNotEmpty movedFrom).2 l.tail := by
  obtain ⟨hw, hcase⟩ := hr
  have hlen := hw.1
  rcases hcase with ⟨hl, hhd, ht⟩ | ⟨h, k, hh, hk, hhead, htail, hl⟩
  · have hP : b.PopIfNotEmpty movedFrom = (none, b) := by
      simp [RingBuffer.PopIfNotEmpty, hhd]
    rw [hP, hl]
    exact ⟨rfl, hw, Or.inl ⟨rfl, hhd, ht⟩⟩
  · have hhd0 : l.head? = some (b.node h).data := by
      rw [hl, List.range_succ_eq_map]
      simp [slotVal_zero b h hh]
    by_cases hk0 : k = 0
    · -- a single element: both cursors become null
      subst hk0
      have ht : b.tail_ = some h := by rw [htail, Nat.add_zero, Nat.mod_eq_of_lt hh]
      have hP : b.PopIfNotEmpty movedFrom =
          (some (b.node h).data,
            { data_ := b.store h (movedFrom (b.node h).data), head_ := none, tail_ := none }) := by
        simp [RingBuffer.PopIfNotEmpty, hhead, ht]
      rw [hP]
      refine ⟨hhd0.symm, wellLinked_store b h _ _ _ hh hw, Or.inl ⟨?_, rfl, rfl⟩⟩
      rw [hl]
      rfl
    · obtain ⟨j, rfl⟩ : ∃ j, k = j + 1 := ⟨k - 1, by omega⟩
      have hne : ¬ h = (h + (j + 1)) % capacity :=
        fun e => mod_add_ne_self hh hk (by omega) e.symm
      have hP : b.PopIfNotEmpty movedFrom =
          (some (b.node h).data,
            { data_ := b.store h (movedFrom (b.node h).data),
              head_ := some ((h + 1) % capacity),
              tail_ := some ((h + (j + 1)) % capacity) }) := by
        simp [RingBuffer.PopIfNotEmpty, hhead, htail, hne, hw.2 h hh]
      rw [hP]
      refine ⟨hhd0.symm, wellLinked_store b h _ _ _ hh hw,
        Or.inr ⟨(h + 1) % capacity, j, Nat.mod_lt _ hN, by omega, rfl, ?_, ?_⟩⟩
      · rw [Nat.mod_add_mod, Nat.add_assoc, Nat.add_comm 1 j]
      · rw [hl, List.range_succ_eq_map]
        simp only [List.map_cons, List.tail_cons, List.map_map]
        apply List.map_congr_left
        intro i hi
        have hi2 : i < j + 1 := List.mem_range.mp hi
        have : (h + 1 + i) % capacity ≠ h := by
          rw [Nat.add_assoc]
          exact mod_add_ne_self hh (by omega) (by omega)
        rw [slotVal_store b h _ _ _ (by omega), Nat.mod_add_mod, if_neg this, slotVal_shift]
        rfl

/-! ## Iteration reads the represented list -/

theorem collect_end (b : RingBuffer T capacity) (fuel : Nat) :
    b.collect fuel b.end_ = some [] := by
  cases fuel <;> simp [RingBuffer.collect, RingBufferIterator.operatorNe,
    RingBufferIterator.operatorEq, RingBuffer.end_]

theorem collect_window (b : RingBuffer T capacity) (hN : 0 < capacity) (hw : WellLinked b)
    (h k : Nat) (hk : k < capacity) (fuel : Nat) :
    ∀ j, j ≤ k →
      b.collect fuel { buffer_ := some (), head_ := some ((h + j) % capacity),
                       tail_ := some ((h + k) % capacity) }
        = if k - j + 1 ≤ fuel then some ((List.range' j (k - j + 1)).map (slotVal b h))
          else none := by
  induction fuel with
  | zero =>
    intro j _
    simp [RingBuffer.collect, RingBufferIterator.operatorNe, RingBufferIterator.operatorEq,
      RingBuffer.end_]
  | succ fuel ih =>
    intro j hj
    have hne : RingBufferIterator.operatorNe
        { buffer_ := some (), head_ := some ((h + j) % capacity),
          tail_ := some ((h + k) % capacity) } b.end_ = true := by
      simp [RingBufferIterator.operatorNe, RingBufferIterator.operatorEq, RingBuffer.end_]
    have hstar : RingBufferIterator.operatorStar b
        { buffer_ := some (), head_ := some ((h + j) % capacity),
          tail_ := some ((h + k) % capacity) } = slotVal b h j := rfl
    rw [RingBuffer.collect, if_pos hne, hstar]
    by_cases hjk : j = k
    · subst hjk
      have hinc : RingBufferIterator.operatorInc b
          { buffer_ := some (), head_ := some ((h + j) % capacity),
            tail_ := some ((h + j) % capacity) } = b.end_ := by
        simp [RingBufferIterator.operatorInc, RingBuffer.end_]
      rw [hinc, collect_end]
      simp
    · have hlt : j < k := by omega
      have hneq : (h + j) % capacity ≠ (h + k) % capacity := by
        intro e
        exact hjk (mod_add_inj (by omega) hk e)
      have hinc : RingBufferIterator.operatorInc b
          { buffer_ := some (), head_ := some ((h + j) % capacity),
            tail_ := some ((h + k) % capacity) }
          = { buffer_ := some (), head_ := some ((h + (j + 1)) % capacity),
              tail_ := some ((h + k) % capacity) } := by
        simp [RingBufferIterator.operatorInc, hneq, hw.2 _ (Nat.mod_lt _ hN), mod_succ]
      rw [hinc, ih (j + 1) (by omega)]
      have e1 : List.range' j (k - j + 1) = j :: List.range' (j + 1) (k - (j + 1) + 1) := by
        have : k - j + 1 = (k - (j + 1) + 1) + 1 := by omega
        rw [this, List.range'_succ]
      by_cases hf : k - (j + 1) + 1 ≤ fuel
      · rw [if_pos hf, if_pos (by omega), e1]
        rfl
      · rw [if_neg hf, if_neg (by omega)]
        rfl

theorem rep_iterate (b : RingBuffer T capacity) (l : List T) (hN : 0 < capacity)
    (hr : Rep b l) (fuel : Nat) :
    b.iterate fuel = if l.length ≤ fuel then some l else none := by
  obtain ⟨hw, hcase⟩ := hr
  rcases hcase with ⟨hl, hhd, ht⟩ | ⟨h, k, hh, hk, hhead, htail, hl⟩
  · have hb : b.begin = b.end_ := by simp [RingBuffer.begin, RingBuffer.end_, hhd, ht]
    rw [RingBuffer.iterate, hb, collect_end, hl]
    simp
  · have hb : b.begin =
        { buffer_ := some (), head_ := some ((h + 0) % capacity),
          tail_ := some ((h + k) % capacity) } := by
      simp [RingBuffer.begin, hhead, htail, Nat.mod_eq_of_lt hh]
    have hlen : l.length = k + 1 := by rw [hl]; simp
    rw [RingBuffer.iterate, hb, collect_window b hN hw h k hk fuel 0 (Nat.zero_le _), hlen, hl,
      Nat.sub_zero, List.range_eq_range']

/-! ## Reachable states and runs of calls -/

theorem reachable_rep (movedFrom : T → T) (b : RingBuffer T capacity) (hN : 0 < capacity)
    (hb : Reachable movedFrom b) : ∃ l, Rep b l := by
  induction hb with
  | fresh => exact ⟨[], rep_mk0 T capacity⟩
  | append b x _ ih =>
    obtain ⟨l, hl⟩ := ih
    exact ⟨_, rep_append b l x hN hl⟩
  | pop b _ ih =>
    obtain ⟨l, hl⟩ := ih
    exact ⟨_, (rep_pop movedFrom b l hN hl).2⟩
  | clear b _ ih =>
    obtain ⟨l, hl⟩ := ih
    exact ⟨_, rep_clear b l hl⟩

theorem rep_of_iterate (b : RingBuffer T capacity) (l m : List T) (hN : 0 < capacity)
    (hr : Rep b l) (fuel : Nat) (hit : b.iterate fuel = some m) : Rep b m := by
  rw [rep_iterate b l hN hr fuel] at hit
  split_ifs at hit
  cases hit
  exact hr

theorem reachable_rep_iterate (movedFrom : T → T) (b : RingBuffer T capacity)
    (hN : 0 < capacity) (hb : Reachable movedFrom b) (l : List T) (fuel : Nat)
    (hit : b.iterate fuel = some l) : Rep b l := by
  obtain ⟨m, hm⟩ := reachable_rep movedFrom b hN hb
  exact rep_of_iterate b m l hN hm fuel hit

theorem rep_iterate_of_le (b : RingBuffer T capacity) (l : List T) (hN : 0 < capacity)
    (hr : Rep b l) (fuel : Nat) (hf : capacity ≤ fuel) : b.iterate fuel = some l := by
  rw [rep_iterate b l hN hr fuel, if_pos (Nat.le_trans (rep_length_le b l hr) hf)]

theorem run_refines (movedFrom : T → T) (hN : 0 < capacity) (cs : List (Call T)) :
    ∀ (b : RingBuffer T capacity) (l : List T), Rep b l →
      (RingBuffer.run movedFrom b cs).1 = (refRun capacity l cs).1 ∧
      Rep (RingBuffer.run movedFrom b cs).2 (refRun capacity l cs).2 := by
  induction cs with
  | nil =>
    intro b l hr
    exact ⟨rfl, hr⟩
  | cons c cs ih =>
    intro b l hr
    cases c with
    | Append x => exact ih _ _ (rep_append b l x hN hr)
    | PopIfNotEmpty =>
      obtain ⟨h1, h2⟩ := rep_pop movedFrom b l hN hr
      obtain ⟨h3, h4⟩ := ih _ _ h2
      refine ⟨?_, h4⟩
      simp only [RingBuffer.run, refRun, refPop]
      rw [h1, h3]
    | Clear => exact ih _ _ (rep_clear b l hr)

theorem appendAll_rep (hN : 0 < capacity) (xs : List T) :
    ∀ (b : RingBuffer T capacity) (l : List T), Rep b l →
      Rep (b.appendAll xs) (refAppendAll capacity l xs) := by
  induction xs with
  | nil => intro b l hr; exact hr
  | cons x xs ih => intro b l hr; exact ih _ _ (rep_append b l x hN hr)

theorem popMany_rep (movedFrom : T → T) (hN : 0 < capacity) (m : Nat) :
    ∀ (b : RingBuffer T capacity) (l : List T), Rep b l →
      (RingBuffer.popMany movedFrom b m).1 = (List.range m).map (fun i => l[i]?) ∧
      Rep (RingBuffer.popMany movedFrom b m).2 (l.drop m) := by
  induction m with
  | zero => intro b l hr; exact ⟨rfl, hr⟩
  | succ m ih =>
    intro b l hr
    obtain ⟨h1, h2⟩ := rep_pop movedFrom b l hN hr
    obtain ⟨h3, h4⟩ := ih _ _ h2
    constructor
    · simp only [RingBuffer.popMany]
      rw [h1, h3, List.range_succ_eq_map, List.map_cons, List.map_map, List.head?_eq_getElem?]
      congr 1
      apply List.map_congr_left
      intro i _
      simp
    · simp only [RingBuffer.popMany]
      rw [← List.drop_one, List.drop_drop] at h4
      rw [Nat.add_comm m 1]
      exact h4

theorem rep_nil_cursors (b : RingBuffer T capacity) (hr : Rep b []) :
    b.head_ = none ∧ b.tail_ = none := by
  rcases hr.2 with ⟨_, h1, h2⟩ | ⟨h, k, _, _, _, _, hl⟩
  · exact ⟨h1, h2⟩
  · have := congrArg List.length hl
    simp at this

theorem rep_cons_cursors (b : RingBuffer T capacity) (e : T) (l : List T) (hr : Rep b (e :: l)) :
    b.head_ ≠ none ∧ b.tail_ ≠ none := by
  rcases hr.2 with ⟨h0, _, _⟩ | ⟨h, k, _, _, h1, h2, _⟩
  · cases h0
  · rw [h1, h2]
    exact ⟨by simp, by simp⟩

theorem reachable_appendAll (movedFrom : T → T) (xs : List T) :
    ∀ b : RingBuffer T capacity, Reachable movedFrom b → Reachable movedFrom (b.appendAll xs) := by
  induction xs with
  | nil => intro b hb; exact hb
  | cons x xs ih => intro b hb; exact ih _ (Reachable.append b x hb)

theorem reachable_popMany (movedFrom : T → T) (m : Nat) :
    ∀ b : RingBuffer T capacity, Reachable movedFrom b →
      Reachable movedFrom (RingBuffer.popMany movedFrom b m).2 := by
  induction m with
  | zero => intro b hb; exact hb
  | succ m ih => intro b hb; exact ih _ (Reachable.pop b hb)

theorem pop_none_unchanged (movedFrom : T → T) (b : RingBuffer T capacity)
    (h : (b.PopIfNotEmpty movedFrom).1 = none) : (b.PopIfNotEmpty movedFrom).2 = b := by
  unfold RingBuffer.PopIfNotEmpty at h ⊢
  split at h
  · split_ifs at h
  · rfl

theorem pop_clear (movedFrom : T → T) (b : RingBuffer T capacity) :
    (b.Clear.PopIfNotEmpty movedFrom).1 = none := by
  simp [RingBuffer.PopIfNotEmpty, RingBuffer.Clear]

/-! ## Cursors of a represented state, pointer chasing and iterator steps -/

theorem rep_cons_window (b : RingBuffer T capacity) (l : List T) (hr : Rep b l)
    (hne : l ≠ []) :
    ∃ h k, h < capacity ∧ k < capacity ∧ l.length = k + 1 ∧ b.head_ = some h ∧
      b.tail_ = some ((h + k) % capacity) ∧ l = (List.range (k + 1)).map (slotVal b h) := by
  rcases hr.2 with ⟨h0, _, _⟩ | ⟨h, k, hh, hk, h1, h2, hl⟩
  · exact absurd h0 hne
  · exact ⟨h, k, hh, hk, by rw [hl]; simp, h1, h2, hl⟩

theorem follow_eq (b : RingBuffer T capacity) (hN : 0 < capacity) (hw : WellLinked b)
    (h : Nat) (hh : h < capacity) (k : Nat) : b.follow k h = (h + k) % capacity := by
  induction k with
  | zero => rw [RingBuffer.follow, Nat.add_zero, Nat.mod_eq_of_lt hh]
  | succ k ih => rw [RingBuffer.follow, ih, hw.2 _ (Nat.mod_lt _ hN), mod_succ]

theorem advance_window (b : RingBuffer T capacity) (hN : 0 < capacity) (hw : WellLinked b)
    (h k : Nat) (hh : h < capacity) (hk : k < capacity) (j : Nat) (hj : j ≤ k) :
    b.advance j { buffer_ := some (), head_ := some h, tail_ := some ((h + k) % capacity) }
      = { buffer_ := some (), head_ := some ((h + j) % capacity),
          tail_ := some ((h + k) % capacity) } := by
  induction j with
  | zero => rw [RingBuffer.advance, Nat.add_zero, Nat.mod_eq_of_lt hh]
  | succ j ih =>
    have hneq : (h + j) % capacity ≠ (h + k) % capacity := by
      intro e
      have := mod_add_inj (by omega) hk e
      omega
    rw [RingBuffer.advance, ih (by omega)]
    simp [RingBufferIterator.operatorInc, hneq, hw.2 _ (Nat.mod_lt _ hN), mod_succ]

theorem advance_window_end (b : RingBuffer T capacity) (hN : 0 < capacity) (hw : WellLinked b)
    (h k : Nat) (hh : h < capacity) (hk : k < capacity) :
    b.advance (k + 1)
        { buffer_ := some (), head_ := some h, tail_ := some ((h + k) % capacity) }
      = b.end_ := by
  rw [RingBuffer.advance, advance_window b hN hw h k hh hk k (Nat.le_refl k)]
  simp [RingBufferIterator.operatorInc, RingBuffer.end_]

theorem observe_congr (movedFrom : T → T) (hN : 0 < capacity) (fuel : Nat)
    (as : List (Action T)) :
    ∀ (b c : RingBuffer T capacity) (l : List T), Rep b l → Rep c l →
      RingBuffer.observe movedFrom fuel b as = RingBuffer.observe movedFrom fuel c as := by
  induction as with
  | nil => intro b c l _ _; rfl
  | cons a as ih =>
    intro b c l hb hc
    cases a with
    | Append x =>
      exact ih _ _ _ (rep_append b l x hN hb) (rep_append c l x hN hc)
    | PopIfNotEmpty =>
      obtain ⟨h1, h2⟩ := rep_pop movedFrom b l hN hb
      obtain ⟨h3, h4⟩ := rep_pop movedFrom c l hN hc
      simp only [RingBuffer.observe]
      rw [h1, h3, ih _ _ _ h2 h4]
    | Clear =>
      exact ih _ _ _ (rep_clear b l hb) (rep_clear c l hc)
    | Iterate =>
      simp only [RingBuffer.observe]
      rw [rep_iterate b l hN hb fuel, rep_iterate c l hN hc fuel, ih _ _ _ hb hc]

/-! ## Reachable states are the states after a sequence of calls -/

theorem run_append_state (movedFrom : T → T) (cs ds : List (Call T)) :
    ∀ b : RingBuffer T capacity,
      (RingBuffer.run movedFrom b (cs ++ ds)).2
        = (RingBuffer.run movedFrom (RingBuffer.run movedFrom b cs).2 ds).2 := by
  induction cs with
  | nil => intro b; rfl
  | cons c cs ih =>
    intro b
    cases c with
    | Append x => exact ih _
    | PopIfNotEmpty => exact ih _
    | Clear => exact ih _

theorem reachable_run (movedFrom : T → T) (cs : List (Call T)) :
    ∀ b : RingBuffer T capacity, Reachable movedFrom b →
      Reachable movedFrom (RingBuffer.run movedFrom b cs).2 := by
  induction cs with
  | nil => intro b hb; exact hb
  | cons c cs ih =>
    intro b hb
    cases c with
    | Append x => exact ih _ (Reachable.append b x hb)
    | PopIfNotEmpty => exact ih _ (Reachable.pop b hb)
    | Clear => exact ih _ (Reachable.clear b hb)

theorem reachable_iff_run (movedFrom : T → T) (b : RingBuffer T capacity) :
    Reachable movedFrom b ↔
      ∃ cs, (RingBuffer.run movedFrom (RingBuffer.mk0 T capacity) cs).2 = b := by
  constructor
  · intro hb
    induction hb with
    | fresh => exact ⟨[], rfl⟩
    | append b x _ ih =>
      obtain ⟨cs, hcs⟩ := ih
      exact ⟨cs ++ [Call.Append x], by rw [run_append_state, hcs]; rfl⟩
    | pop b _ ih =>
      obtain ⟨cs, hcs⟩ := ih
      exact ⟨cs ++ [Call.PopIfNotEmpty], by rw [run_append_state, hcs]; rfl⟩
    | clear b _ ih =>
      obtain ⟨cs, hcs⟩ := ih
      exact ⟨cs ++ [Call.Clear], by rw [run_append_state, hcs]; rfl⟩
  · rintro ⟨cs, rfl⟩
    exact reachable_run movedFrom cs _ Reachable.fresh

end Proofs

/-! ## The claims -/

section Claims

variable {T : Type} [Inhabited T] {capacity : Nat}

/-- C1: for every capacity of at least 1 and every finite sequence of `Append`,
`PopIfNotEmpty` and `Clear` calls on a freshly constructed buffer, the begin-to-end
iteration of the final state terminates and reads exactly the list kept by the
reference bounded queue run over the same calls, and the `PopIfNotEmpty` calls
return, in order, what the reference queue returns (its first element, or absent
when it is empty). -/
theorem run_refines_reference_queue (movedFrom : T → T) (hN : 1 ≤ capacity)
    (cs : List (Call T)) (fuel : Nat) (hf : capacity ≤ fuel) :
    (RingBuffer.run movedFrom (RingBuffer.mk0 T capacity) cs).2.iterate fuel
        = some (refRun capacity [] cs).2 ∧
      (RingBuffer.run movedFrom (RingBuffer.mk0 T capacity) cs).1
        = (refRun capacity [] cs).1 := by
  obtain ⟨h1, h2⟩ := run_refines movedFrom hN cs _ _ (rep_mk0 T capacity)
  exact ⟨rep_iterate_of_le _ _ hN h2 fuel hf, h1⟩

theorem run_refines_reference_queue_witness :
    1 ≤ 3 ∧ 3 ≤ 4 ∧
    (RingBuffer.run id (RingBuffer.mk0 Nat 3)
        [Call.Append 1, Call.Append 2, Call.Append 3, Call.Append 4, Call.PopIfNotEmpty,
         Call.Append 5, Call.Append 6, Call.PopIfNotEmpty, Call.Clear, Call.PopIfNotEmpty,
         Call.Append 7, Call.Append 8]).2.iterate 4 = some [7, 8] ∧
    (RingBuffer.run id (RingBuffer.mk0 Nat 3)
        [Call.Append 1, Call.Append 2, Call.Append 3, Call.Append 4, Call.PopIfNotEmpty,
         Call.Append 5, Call.Append 6, Call.PopIfNotEmpty, Call.Clear, Call.PopIfNotEmpty,
         Call.Append 7, Call.Append 8]).1 = [some 2, some 4, none] :=
  ⟨by decide, by decide,
    run_refines_reference_queue id (by decide)
      [Call.Append 1, Call.Append 2, Call.Append 3, Call.Append 4, Call.PopIfNotEmpty,
       Call.Append 5, Call.Append 6, Call.PopIfNotEmpty, Call.Clear, Call.PopIfNotEmpty,
       Call.Append 7, Call.Append 8] 4 (by decide)⟩

/-- C2: for every capacity `N` of at least 1 and every list of values appended in
order to a freshly constructed buffer, the begin-to-end iteration terminates and
yields exactly the last `min k N` appended values in append order, that is the
list without its first `k - N` values (the empty list of appends included). -/
theorem appendAll_iterates_last_values (hN : 1 ≤ capacity) (as : List T) (fuel : Nat)
    (hf : capacity ≤ fuel) :
    ((RingBuffer.mk0 T capacity).appendAll as).iterate fuel
        = some (as.drop (as.length - capacity)) ∧
      (as.drop (as.length - capacity)).length = min as.length capacity := by
  have h := appendAll_rep hN as _ _ (rep_mk0 T capacity)
  rw [refAppendAll_eq_drop capacity hN as [] (Nat.zero_le _), List.nil_append] at h
  refine ⟨rep_iterate_of_le _ _ hN h fuel hf, ?_⟩
  rw [List.length_drop]
  omega

theorem appendAll_iterates_last_values_witness :
    1 ≤ 3 ∧ 3 ≤ 3 ∧
    ((RingBuffer.mk0 Nat 3).appendAll [0, 1, 2, 3, 4, 5, 6, 7, 8, 9]).iterate 3
        = some [7, 8, 9] ∧
      ([0, 1, 2, 3, 4, 5, 6, 7, 8, 9].drop (10 - 3)).length = min 10 3 :=
  ⟨by decide, by decide,
    appendAll_iterates_last_values (by decide) [0, 1, 2, 3, 4, 5, 6, 7, 8, 9] 3 (by decide)⟩

/-- C3: in a reachable state of a buffer of capacity `N` of at least 1 whose
iteration sequence `e1 :: rest` has exactly `N` elements, `Append x` leaves a state
whose iteration sequence is `rest ++ [x]`: only the oldest element is evicted and
the order of the others is unchanged.  The evicted element is returned by no later
`PopIfNotEmpty`: over any later calls the pops return what the reference queue
started at `rest ++ [x]` returns, so the value `e1` is never returned when it
differs from the values kept, from `x` and from the values appended later. -/
theorem append_at_capacity_evicts_oldest (movedFrom : T → T) (hN : 1 ≤ capacity)
    (b : RingBuffer T capacity) (hb : Reachable movedFrom b) (e1 : T) (rest : List T)
    (fuel0 : Nat) (hit : b.iterate fuel0 = some (e1 :: rest))
    (hfull : (e1 :: rest).length = capacity) (x : T) (fuel : Nat) (hf : capacity ≤ fuel)
    (cs : List (Call T)) :
    (b.Append x).iterate fuel = some (rest ++ [x]) ∧
      (RingBuffer.run movedFrom (b.Append x) cs).1 = (refRun capacity (rest ++ [x]) cs).1 ∧
      (e1 ∉ rest → e1 ≠ x → (∀ y, Call.Append y ∈ cs → y ≠ e1) →
        some e1 ∉ (RingBuffer.run movedFrom (b.Append x) cs).1) := by
  have hr := reachable_rep_iterate movedFrom b hN hb _ fuel0 hit
  have hr2 := rep_append b _ x hN hr
  have e : refAppend capacity (e1 :: rest) x = rest ++ [x] := by
    unfold refAppend
    rw [if_pos hfull]
    rfl
  rw [e] at hr2
  have hrun := (run_refines movedFrom hN cs _ _ hr2).1
  refine ⟨rep_iterate_of_le _ _ hN hr2 fuel hf, hrun, ?_⟩
  intro h1 h2 h3 hmem
  rw [hrun] at hmem
  rcases refRun_mem capacity e1 cs _ hmem with h4 | h4
  · rcases List.mem_append.mp h4 with h5 | h5
    · exact h1 h5
    · exact h2 (List.mem_singleton.mp h5)
  · exact h3 e1 h4 rfl

theorem append_at_capacity_evicts_oldest_witness :
    1 ≤ 3 ∧
    Reachable id ((((RingBuffer.mk0 Nat 3).Append 1).Append 2).Append 3) ∧
    ((((RingBuffer.mk0 Nat 3).Append 1).Append 2).Append 3).iterate 3 = some [1, 2, 3] ∧
    [1, 2, 3].length = 3 ∧ 3 ≤ 3 ∧
    (((((RingBuffer.mk0 Nat 3).Append 1).Append 2).Append 3).Append 4).iterate 3
      = some [2, 3, 4] ∧
    (RingBuffer.run id (((((RingBuffer.mk0 Nat 3).Append 1).Append 2).Append 3).Append 4)
      [Call.PopIfNotEmpty, Call.Append 5, Call.PopIfNotEmpty, Call.PopIfNotEmpty,
       Call.PopIfNotEmpty, Call.PopIfNotEmpty]).1 = [some 2, some 3, some 4, some 5, none] :=
  ⟨by decide,
    Reachable.append _ _ (Reachable.append _ _ (Reachable.append _ _ Reachable.fresh)),
    by decide, by decide, by decide,
    (append_at_capacity_evicts_oldest id (by decide) _
      (Reachable.append _ _ (Reachable.append _ _ (Reachable.append _ _ Reachable.fresh)))
      1 [2, 3] 3 (by decide) (by decide) 4 3 (by decide)
      [Call.PopIfNotEmpty, Call.Append 5, Call.PopIfNotEmpty, Call.PopIfNotEmpty,
       Call.PopIfNotEmpty, Call.PopIfNotEmpty]).1,
    (append_at_capacity_evicts_oldest id (by decide) _
      (Reachable.append _ _ (Reachable.append _ _ (Reachable.append _ _ Reachable.fresh)))
      1 [2, 3] 3 (by decide) (by decide) 4 3 (by decide)
      [Call.PopIfNotEmpty, Call.Append 5, Call.PopIfNotEmpty, Call.PopIfNotEmpty,
       Call.PopIfNotEmpty, Call.PopIfNotEmpty]).2.1⟩

/-- C4: in a reachable state whose iteration sequence `l` has fewer elements than
the capacity (the empty sequence and a head cursor moved by earlier pops
included), `Append x` leaves a state whose iteration sequence is `l ++ [x]`:
nothing is evicted and the element count becomes `l.length + 1`. -/
theorem append_below_capacity_keeps_all (movedFrom : T → T) (b : RingBuffer T capacity)
    (hb : Reachable movedFrom b) (l : List T) (fuel0 : Nat) (hit : b.iterate fuel0 = some l)
    (hlt : l.length < capacity) (x : T) (fuel : Nat) (hf : capacity ≤ fuel) :
    (b.Append x).iterate fuel = some (l ++ [x]) ∧
      ((b.Append x).iterate fuel).map List.length = some (l.length + 1) := by
  have hN : 0 < capacity := by omega
  have hr := reachable_rep_iterate movedFrom b hN hb _ fuel0 hit
  have hr2 := rep_append b _ x hN hr
  have e : refAppend capacity l x = l ++ [x] := by
    unfold refAppend
    rw [if_neg (by omega)]
  rw [e] at hr2
  have h := rep_iterate_of_le _ _ hN hr2 fuel hf
  refine ⟨h, ?_⟩
  rw [h]
  simp

theorem append_below_capacity_keeps_all_witness :
    Reachable id (((((RingBuffer.mk0 Nat 3).Append 1).Append 2).Append 3).PopIfNotEmpty id).2 ∧
    (((((RingBuffer.mk0 Nat 3).Append 1).Append 2).Append 3).PopIfNotEmpty id).2.iterate 3
      = some [2, 3] ∧
    [2, 3].length < 3 ∧ 3 ≤ 3 ∧
    ((((((RingBuffer.mk0 Nat 3).Append 1).Append 2).Append 3).PopIfNotEmpty id).2.Append 4).iterate 3
      = some [2, 3, 4] ∧
    (((((((RingBuffer.mk0 Nat 3).Append 1).Append 2).Append 3).PopIfNotEmpty id).2.Append
      4).iterate 3).map List.length = some 3 :=
  ⟨Reachable.pop _
      (Reachable.append _ _ (Reachable.append _ _ (Reachable.append _ _ Reachable.fresh))),
    by decide, by decide, by decide,
    append_below_capacity_keeps_all id _
      (Reachable.pop _
        (Reachable.append _ _ (Reachable.append _ _ (Reachable.append _ _ Reachable.fresh))))
      [2, 3] 3 (by decide) (by decide) 4 3 (by decide)⟩

/-- C5: in a reachable state of a buffer of capacity at least 1 whose iteration
sequence is `e1 :: rest`, `PopIfNotEmpty` returns the present value `e1` and leaves
a state whose iteration sequence is `rest`; when `rest` is empty both cursors of
that state are null. -/
theorem pop_returns_oldest (movedFrom : T → T) (hN : 1 ≤ capacity)
    (b : RingBuffer T capacity) (hb : Reachable movedFrom b) (e1 : T) (rest : List T)
    (fuel0 : Nat) (hit : b.iterate fuel0 = some (e1 :: rest)) (fuel : Nat)
    (hf : capacity ≤ fuel) :
    (b.PopIfNotEmpty movedFrom).1 = some e1 ∧
      (b.PopIfNotEmpty movedFrom).2.iterate fuel = some rest ∧
      (rest = [] → (b.PopIfNotEmpty movedFrom).2.head_ = none ∧
        (b.PopIfNotEmpty movedFrom).2.tail_ = none) := by
  have hr := reachable_rep_iterate movedFrom b hN hb _ fuel0 hit
  obtain ⟨h1, h2⟩ := rep_pop movedFrom b _ hN hr
  refine ⟨h1, rep_iterate_of_le _ _ hN h2 fuel hf, ?_⟩
  intro hnil
  rw [List.tail_cons, hnil] at h2
  exact rep_nil_cursors _ h2

theorem pop_returns_oldest_witness :
    1 ≤ 3 ∧
    Reachable id (((((RingBuffer.mk0 Nat 3).Append 1).Append 2).Append 3).Append 4) ∧
    (((((RingBuffer.mk0 Nat 3).Append 1).Append 2).Append 3).Append 4).iterate 3
      = some [2, 3, 4] ∧ 3 ≤ 3 ∧
    ((((((RingBuffer.mk0 Nat 3).Append 1).Append 2).Append 3).Append 4).PopIfNotEmpty id).1
      = some 2 ∧
    ((((((RingBuffer.mk0 Nat 3).Append 1).Append 2).Append 3).Append 4).PopIfNotEmpty id).2.iterate 3
      = some [3, 4] :=
  ⟨by decide,
    Reachable.append _ _
      (Reachable.append _ _ (Reachable.append _ _ (Reachable.append _ _ Reachable.fresh))),
    by decide, by decide,
    (pop_returns_oldest id (by decide) _
      (Reachable.append _ _
        (Reachable.append _ _ (Reachable.append _ _ (Reachable.append _ _ Reachable.fresh))))
      2 [3, 4] 3 (by decide) 3 (by decide)).1,
    (pop_returns_oldest id (by decide) _
      (Reachable.append _ _
        (Reachable.append _ _ (Reachable.append _ _ (Reachable.append _ _ Reachable.fresh))))
      2 [3, 4] 3 (by decide) 3 (by decide)).2.1⟩

/-- C6: in every reachable state of a buffer of capacity at least 1,
`PopIfNotEmpty` returns absent if and only if the iteration sequence is empty, and
a pop that returns absent leaves the state unchanged; it returns absent on a
freshly constructed buffer, after the buffer has been drained by at least as many
pops as it held elements, and after `Clear`. -/
theorem pop_absent_iff_empty (movedFrom : T → T) (hN : 1 ≤ capacity)
    (b : RingBuffer T capacity) (hb : Reachable movedFrom b) (fuel : Nat) (l : List T)
    (m : Nat) :
    ((b.PopIfNotEmpty movedFrom).1 = none ↔ b.iterate fuel = some []) ∧
      ((b.PopIfNotEmpty movedFrom).1 = none → (b.PopIfNotEmpty movedFrom).2 = b) ∧
      ((RingBuffer.mk0 T capacity).PopIfNotEmpty movedFrom).1 = none ∧
      (b.iterate fuel = some l → l.length ≤ m →
        ((RingBuffer.popMany movedFrom b m).2.PopIfNotEmpty movedFrom).1 = none) ∧
      (b.Clear.PopIfNotEmpty movedFrom).1 = none := by
  obtain ⟨l0, hr⟩ := reachable_rep movedFrom b hN hb
  have hpop := (rep_pop movedFrom b l0 hN hr).1
  have hiter := rep_iterate b l0 hN hr fuel
  refine ⟨?_, pop_none_unchanged movedFrom b, rfl, ?_, pop_clear movedFrom b⟩
  · rw [hpop, hiter]
    cases l0 with
    | nil => simp
    | cons e r =>
      constructor
      · intro h
        cases h
      · intro h
        split_ifs at h
        cases h
  · intro hit hlm
    have hr1 := rep_of_iterate b l0 l hN hr fuel hit
    have hr2 := (popMany_rep movedFrom hN m b l hr1).2
    rw [List.drop_eq_nil_of_le hlm] at hr2
    exact (rep_pop movedFrom _ [] hN hr2).1

theorem pop_absent_iff_empty_witness :
    1 ≤ 3 ∧
    Reachable id (((RingBuffer.mk0 Nat 3).Append 1).Append 2) ∧
    ((((RingBuffer.mk0 Nat 3).Append 1).Append 2).PopIfNotEmpty id).1 ≠ none ∧
    (((RingBuffer.mk0 Nat 3).Append 1).Append 2).iterate 3 ≠ some [] ∧
    ((RingBuffer.mk0 Nat 3).PopIfNotEmpty id).1 = none ∧
    ((RingBuffer.popMany id (((RingBuffer.mk0 Nat 3).Append 1).Append 2) 2).2.PopIfNotEmpty
      id).1 = none ∧
    ((((RingBuffer.mk0 Nat 3).Append 1).Append 2).Clear.PopIfNotEmpty id).1 = none :=
  ⟨by decide,
    Reachable.append _ _ (Reachable.append _ _ Reachable.fresh),
    by decide, by decide,
    (pop_absent_iff_empty id (by decide) (((RingBuffer.mk0 Nat 3).Append 1).Append 2)
      (Reachable.append _ _ (Reachable.append _ _ Reachable.fresh)) 3 [1, 2] 2).2.2.1,
    (pop_absent_iff_empty id (by decide) (((RingBuffer.mk0 Nat 3).Append 1).Append 2)
      (Reachable.append _ _ (Reachable.append _ _ Reachable.fresh)) 3 [1, 2] 2).2.2.2.1
      (by decide) (by decide),
    (pop_absent_iff_empty id (by decide) (((RingBuffer.mk0 Nat 3).Append 1).Append 2)
      (Reachable.append _ _ (Reachable.append _ _ Reachable.fresh)) 3 [1, 2] 2).2.2.2.2⟩

/-- C7: for every capacity `N` of at least 1, every list `as` of `k` values appended
in order to a freshly constructed buffer and every number `m` of `PopIfNotEmpty`
calls made afterwards, the pop of index `i` (counted from 0, `i < m`) returns the
present value `as[(k - N) + i]` when `i < min k N` and absent otherwise: the pops
return the last `N` appended values in append order, then absent. -/
theorem pops_after_appends_are_fifo (movedFrom : T → T) (hN : 1 ≤ capacity) (as : List T)
    (m i : Nat) (hi : i < m) :
    (RingBuffer.popMany movedFrom ((RingBuffer.mk0 T capacity).appendAll as) m).1
        = (List.range m).map (fun j => (as.drop (as.length - capacity))[j]?) ∧
      (i < min as.length capacity → ∃ a, as[as.length - capacity + i]? = some a ∧
        (RingBuffer.popMany movedFrom ((RingBuffer.mk0 T capacity).appendAll as) m).1[i]?
          = some (some a)) ∧
      (min as.length capacity ≤ i →
        (RingBuffer.popMany movedFrom ((RingBuffer.mk0 T capacity).appendAll as) m).1[i]?
          = some none) := by
  have hr := appendAll_rep hN as _ _ (rep_mk0 T capacity)
  rw [refAppendAll_eq_drop capacity hN as [] (Nat.zero_le _), List.nil_append] at hr
  have hres := (popMany_rep movedFrom hN m _ _ hr).1
  have hget : (RingBuffer.popMany movedFrom ((RingBuffer.mk0 T capacity).appendAll as) m).1[i]?
      = some (as[as.length - capacity + i]?) := by
    rw [hres, List.getElem?_map, List.getElem?_range hi, Option.map_some', List.getElem?_drop]
  refine ⟨hres, ?_, ?_⟩
  · intro hlt
    have hidx : as.length - capacity + i < as.length := by omega
    refine ⟨as[as.length - capacity + i], List.getElem?_eq_getElem hidx, ?_⟩
    rw [hget, List.getElem?_eq_getElem hidx]
  · intro hge
    have hidx : as.length ≤ as.length - capacity + i := by omega
    rw [hget, List.getElem?_eq_none hidx]

theorem pops_after_appends_are_fifo_witness :
    1 ≤ 3 ∧ 1 < 5 ∧
    (RingBuffer.popMany id ((RingBuffer.mk0 Nat 3).appendAll [10, 11, 12, 13, 14]) 5).1
      = [some 12, some 13, some 14, none, none] ∧
    (1 < min 5 3 → ∃ a, [10, 11, 12, 13, 14][5 - 3 + 1]? = some a ∧
      (RingBuffer.popMany id ((RingBuffer.mk0 Nat 3).appendAll [10, 11, 12, 13, 14]) 5).1[1]?
        = some (some a)) :=
  ⟨by decide, by decide,
    (pops_after_appends_are_fifo id (by decide) [10, 11, 12, 13, 14] 5 1 (by decide)).1,
    (pops_after_appends_are_fifo id (by decide) [10, 11, 12, 13, 14] 5 1 (by decide)).2.1⟩

/-- C8: in a reachable state of a buffer of capacity at least 1 with iteration
sequence `l`, after `p ≤ l.length` pops followed by appending the values `ys` with
`l.length - p + ys.length ≤ capacity`, nothing is evicted: iteration yields
`l.drop p ++ ys`, and draining the buffer with `PopIfNotEmpty` returns exactly
those values in that order and then absent, wherever the cursors stand in the
physical storage. -/
theorem pops_then_appends_within_capacity (movedFrom : T → T) (hN : 1 ≤ capacity)
    (b : RingBuffer T capacity) (hb : Reachable movedFrom b) (l : List T) (fuel0 : Nat)
    (hit : b.iterate fuel0 = some l) (p : Nat) (_hp : p ≤ l.length) (ys : List T)
    (hroom : l.length - p + ys.length ≤ capacity) (fuel : Nat) (hf : capacity ≤ fuel) :
    ((RingBuffer.popMany movedFrom b p).2.appendAll ys).iterate fuel
        = some (l.drop p ++ ys) ∧
      (RingBuffer.popMany movedFrom ((RingBuffer.popMany movedFrom b p).2.appendAll ys)
          ((l.drop p ++ ys).length + 1)).1
        = (l.drop p ++ ys).map some ++ [none] := by
  have hr := reachable_rep_iterate movedFrom b hN hb _ fuel0 hit
  have hr1 := (popMany_rep movedFrom hN p b l hr).2
  have hr2 := appendAll_rep hN ys _ _ hr1
  rw [refAppendAll_of_room capacity hN _ _ (by rw [List.length_drop]; exact hroom)] at hr2
  refine ⟨rep_iterate_of_le _ _ hN hr2 fuel hf, ?_⟩
  rw [(popMany_rep movedFrom hN _ _ _ hr2).1, range_map_lookup]

theorem pops_then_appends_within_capacity_witness :
    1 ≤ 3 ∧
    Reachable id ((((RingBuffer.mk0 Nat 3).Append 1).Append 2).Append 3) ∧
    ((((RingBuffer.mk0 Nat 3).Append 1).Append 2).Append 3).iterate 3 = some [1, 2, 3] ∧
    2 ≤ [1, 2, 3].length ∧ [1, 2, 3].length - 2 + [4, 5].length ≤ 3 ∧ 3 ≤ 3 ∧
    ((RingBuffer.popMany id ((((RingBuffer.mk0 Nat 3).Append 1).Append 2).Append 3)
      2).2.appendAll [4, 5]).iterate 3 = some [3, 4, 5] ∧
    (RingBuffer.popMany id
      ((RingBuffer.popMany id ((((RingBuffer.mk0 Nat 3).Append 1).Append 2).Append 3)
        2).2.appendAll [4, 5]) 4).1 = [some 3, some 4, some 5, none] :=
  ⟨by decide,
    Reachable.append _ _ (Reachable.append _ _ (Reachable.append _ _ Reachable.fresh)),
    by decide, by decide, by decide, by decide,
    pops_then_appends_within_capacity id (by decide) _
      (Reachable.append _ _ (Reachable.append _ _ (Reachable.append _ _ Reachable.fresh)))
      [1, 2, 3] 3 (by decide) 2 (by decide) [4, 5] (by decide) 3 (by decide)⟩

/-- C9: whatever the state before the call, after `Clear` the iterator returned
by `begin()` equals `end()`, iteration yields no elements, and `PopIfNotEmpty`
returns absent. -/
theorem clear_empties (movedFrom : T → T) (b : RingBuffer T capacity) (fuel : Nat) :
    b.Clear.begin.operatorEq b.Clear.end_ = true ∧
      b.Clear.iterate fuel = some [] ∧
      (b.Clear.PopIfNotEmpty movedFrom).1 = none := by
  have hb : b.Clear.begin = b.Clear.end_ := by
    simp [RingBuffer.begin, RingBuffer.end_, RingBuffer.Clear]
  refine ⟨?_, ?_, pop_clear movedFrom b⟩
  · rw [hb]
    simp [RingBufferIterator.operatorEq]
  · rw [RingBuffer.iterate, hb, collect_end]

/-- C10: for every capacity `N` of at least 1, every reachable state `s` and every
list `xs` of `k` values, after `Clear` on `s` followed by appending `xs` with no
pops, and likewise after appending `xs` to a freshly constructed buffer, the
number of elements produced by iteration is exactly `min k N`. -/
theorem appends_after_clear_count (movedFrom : T → T) (hN : 1 ≤ capacity)
    (s : RingBuffer T capacity) (hs : Reachable movedFrom s) (xs : List T) (fuel : Nat)
    (hf : capacity ≤ fuel) :
    ((s.Clear.appendAll xs).iterate fuel).map List.length = some (min xs.length capacity) ∧
      (((RingBuffer.mk0 T capacity).appendAll xs).iterate fuel).map List.length
        = some (min xs.length capacity) := by
  obtain ⟨l, hr⟩ := reachable_rep movedFrom s hN hs
  have h1 := appendAll_rep hN xs _ _ (rep_clear s l hr)
  have h2 := appendAll_rep hN xs _ _ (rep_mk0 T capacity)
  rw [refAppendAll_eq_drop capacity hN xs [] (Nat.zero_le _), List.nil_append] at h1 h2
  rw [rep_iterate_of_le _ _ hN h1 fuel hf, rep_iterate_of_le _ _ hN h2 fuel hf]
  simp only [Option.map_some', List.length_drop]
  have e : xs.length - (xs.length - capacity) = min xs.length capacity := by omega
  rw [e]
  exact ⟨rfl, rfl⟩

theorem appends_after_clear_count_witness :
    1 ≤ 3 ∧
    Reachable id ((((RingBuffer.mk0 Nat 3).Append 1).Append 2).PopIfNotEmpty id).2 ∧ 3 ≤ 3 ∧
    ((((((RingBuffer.mk0 Nat 3).Append 1).Append 2).PopIfNotEmpty id).2.Clear.appendAll
      [5, 6, 7, 8]).iterate 3).map List.length = some (min 4 3) ∧
    (((RingBuffer.mk0 Nat 3).appendAll [5, 6, 7, 8]).iterate 3).map List.length
      = some (min 4 3) :=
  ⟨by decide,
    Reachable.pop _ (Reachable.append _ _ (Reachable.append _ _ Reachable.fresh)),
    by decide,
    appends_after_clear_count id (by decide) _
      (Reachable.pop _ (Reachable.append _ _ (Reachable.append _ _ Reachable.fresh)))
      [5, 6, 7, 8] 3 (by decide)⟩

/-- C11: in every state reachable from a freshly constructed buffer of capacity
`N` of at least 1 by `Append`, `PopIfNotEmpty` and `Clear` calls, iteration
terminates within `N` increments and the number of valid elements, the length of
the iteration sequence, is at most `N`. -/
theorem element_count_at_most_capacity (movedFrom : T → T) (hN : 1 ≤ capacity)
    (b : RingBuffer T capacity) (hb : Reachable movedFrom b) (fuel : Nat)
    (hf : capacity ≤ fuel) (fuel0 : Nat) (m : List T) :
    (∃ l, b.iterate fuel = some l ∧ l.length ≤ capacity) ∧
      (b.iterate fuel0 = some m → m.length ≤ capacity) := by
  obtain ⟨l, hr⟩ := reachable_rep movedFrom b hN hb
  refine ⟨⟨l, rep_iterate_of_le b l hN hr fuel hf, rep_length_le b l hr⟩, ?_⟩
  intro hit
  exact rep_length_le b m (rep_of_iterate b l m hN hr fuel0 hit)

theorem element_count_at_most_capacity_witness :
    1 ≤ 2 ∧
    Reachable id
      ((((((RingBuffer.mk0 Nat 2).Append 1).Append 2).Append 3).PopIfNotEmpty id).2.Append 4) ∧
    2 ≤ 2 ∧
    ((((((RingBuffer.mk0 Nat 2).Append 1).Append 2).Append 3).PopIfNotEmpty id).2.Append
        4).iterate 5 = some [3, 4] ∧
    (∃ l, ((((((RingBuffer.mk0 Nat 2).Append 1).Append 2).Append 3).PopIfNotEmpty id).2.Append
        4).iterate 2 = some l ∧ l.length ≤ 2) ∧
    [3, 4].length ≤ 2 :=
  ⟨by decide,
    Reachable.append _ _ (Reachable.pop _
      (Reachable.append _ _ (Reachable.append _ _ (Reachable.append _ _ Reachable.fresh)))),
    by decide, by decide,
    (element_count_at_most_capacity id (by decide)
      ((((((RingBuffer.mk0 Nat 2).Append 1).Append 2).Append 3).PopIfNotEmpty id).2.Append 4)
      (Reachable.append _ _ (Reachable.pop _
        (Reachable.append _ _ (Reachable.append _ _ (Reachable.append _ _ Reachable.fresh)))))
      2 (by decide) 5 [3, 4]).1,
    (element_count_at_most_capacity id (by decide)
      ((((((RingBuffer.mk0 Nat 2).Append 1).Append 2).Append 3).PopIfNotEmpty id).2.Append 4)
      (Reachable.append _ _ (Reachable.pop _
        (Reachable.append _ _ (Reachable.append _ _ (Reachable.append _ _ Reachable.fresh)))))
      2 (by decide) 5 [3, 4]).2 (by decide)⟩

/-- C12: in the state a freshly constructed buffer of capacity at least 1 reaches
after any finite sequence of `Append`, `PopIfNotEmpty` and `Clear` calls (these
are the reachable states), `begin()` compares equal to `end()` exactly when the
container holds no elements, that is when the reference bounded queue run over
the same calls is empty: the iterator constructed over an empty container equals
the default-constructed one at once, and the iterator constructed over a
non-empty container differs from it. -/
theorem begin_eq_end_iff_empty (movedFrom : T → T) (hN : 1 ≤ capacity)
    (cs : List (Call T)) :
    ((RingBuffer.run movedFrom (RingBuffer.mk0 T capacity) cs).2.begin.operatorEq
          (RingBuffer.run movedFrom (RingBuffer.mk0 T capacity) cs).2.end_ = true
        ↔ (refRun capacity [] cs).2 = []) ∧
      ((refRun capacity [] cs).2 = [] →
        (RingBuffer.run movedFrom (RingBuffer.mk0 T capacity) cs).2.begin
          = (RingBuffer.run movedFrom (RingBuffer.mk0 T capacity) cs).2.end_) ∧
      ((refRun capacity [] cs).2 ≠ [] →
        (RingBuffer.run movedFrom (RingBuffer.mk0 T capacity) cs).2.begin.operatorNe
          (RingBuffer.run movedFrom (RingBuffer.mk0 T capacity) cs).2.end_ = true) := by
  have hr := (run_refines movedFrom hN cs _ _ (rep_mk0 T capacity)).2
  generalize (RingBuffer.run movedFrom (RingBuffer.mk0 T capacity) cs).2 = b at hr ⊢
  generalize (refRun capacity [] cs).2 = l at hr ⊢
  have key : b.begin.operatorEq b.end_ = true ↔ l = [] := by
    cases l with
    | nil =>
      obtain ⟨h1, h2⟩ := rep_nil_cursors b hr
      simp [RingBuffer.begin, RingBuffer.end_, RingBufferIterator.operatorEq, h1, h2]
    | cons e r =>
      obtain ⟨h, k, _, _, _, h1, h2, _⟩ := rep_cons_window b _ hr (by simp)
      simp [RingBuffer.begin, RingBuffer.end_, RingBufferIterator.operatorEq, h1, h2]
  refine ⟨key, ?_, ?_⟩
  · intro hnil
    rw [hnil] at hr
    obtain ⟨h1, h2⟩ := rep_nil_cursors b hr
    simp [RingBuffer.begin, RingBuffer.end_, h1, h2]
  · intro hne
    unfold RingBufferIterator.operatorNe
    cases hEq : b.begin.operatorEq b.end_ with
    | true => exact absurd (key.mp hEq) hne
    | false => rfl

theorem begin_eq_end_iff_empty_witness :
    1 ≤ 3 ∧
    (refRun 3 [] [Call.Append 1, Call.Append 2, Call.PopIfNotEmpty, Call.PopIfNotEmpty]).2
      = ([] : List Nat) ∧
    ((RingBuffer.run id (RingBuffer.mk0 Nat 3)
        [Call.Append 1, Call.Append 2, Call.PopIfNotEmpty, Call.PopIfNotEmpty]).2.begin.operatorEq
      (RingBuffer.run id (RingBuffer.mk0 Nat 3)
        [Call.Append 1, Call.Append 2, Call.PopIfNotEmpty, Call.PopIfNotEmpty]).2.end_
      = true) ∧
    (refRun 3 [] [Call.Append 1, Call.Append 2, Call.PopIfNotEmpty]).2 ≠ ([] : List Nat) ∧
    ((RingBuffer.run id (RingBuffer.mk0 Nat 3)
        [Call.Append 1, Call.Append 2, Call.PopIfNotEmpty]).2.begin.operatorNe
      (RingBuffer.run id (RingBuffer.mk0 Nat 3)
        [Call.Append 1, Call.Append 2, Call.PopIfNotEmpty]).2.end_
      = true) :=
  ⟨by decide, by decide,
    (begin_eq_end_iff_empty id (by decide)
      [Call.Append 1, Call.Append 2, Call.PopIfNotEmpty, Call.PopIfNotEmpty]).1.mpr
      (by decide),
    by decide,
    (begin_eq_end_iff_empty id (by decide)
      [Call.Append 1, Call.Append 2, Call.PopIfNotEmpty]).2.2 (by decide)⟩

/-- C13: for every reachable state `s` of a buffer of capacity at least 1 and
every finite sequence of `Append`, `PopIfNotEmpty` and iteration steps (`Clear`
steps allowed as well), running the sequence on the state `Clear` leaves from `s`
produces the same `PopIfNotEmpty` results and the same iteration sequences as
running it on a freshly constructed buffer of the same capacity. -/
theorem clear_behaves_like_fresh (movedFrom : T → T) (hN : 1 ≤ capacity)
    (s : RingBuffer T capacity) (hs : Reachable movedFrom s) (as : List (Action T))
    (fuel : Nat) :
    RingBuffer.observe movedFrom fuel s.Clear as
      = RingBuffer.observe movedFrom fuel (RingBuffer.mk0 T capacity) as := by
  obtain ⟨l, hr⟩ := reachable_rep movedFrom s hN hs
  exact observe_congr movedFrom hN fuel as _ _ [] (rep_clear s l hr) (rep_mk0 T capacity)

theorem clear_behaves_like_fresh_witness :
    1 ≤ 3 ∧
    Reachable id (((RingBuffer.mk0 Nat 3).Append 1).Append 2) ∧
    RingBuffer.observe id 3 (((RingBuffer.mk0 Nat 3).Append 1).Append 2).Clear
        [Action.Append 7, Action.Iterate, Action.Append 8, Action.Append 9, Action.Append 10,
         Action.Iterate, Action.PopIfNotEmpty, Action.PopIfNotEmpty, Action.Iterate]
      = RingBuffer.observe id 3 (RingBuffer.mk0 Nat 3)
        [Action.Append 7, Action.Iterate, Action.Append 8, Action.Append 9, Action.Append 10,
         Action.Iterate, Action.PopIfNotEmpty, Action.PopIfNotEmpty, Action.Iterate] ∧
    RingBuffer.observe id 3 (RingBuffer.mk0 Nat 3)
        [Action.Append 7, Action.Iterate, Action.Append 8, Action.Append 9, Action.Append 10,
         Action.Iterate, Action.PopIfNotEmpty, Action.PopIfNotEmpty, Action.Iterate]
      = [Observation.iterated (some [7]), Observation.iterated (some [8, 9, 10]),
         Observation.popped (some 8), Observation.popped (some 9),
         Observation.iterated (some [10])] :=
  ⟨by decide, Reachable.append _ _ (Reachable.append _ _ Reachable.fresh),
    clear_behaves_like_fresh id (by decide) (((RingBuffer.mk0 Nat 3).Append 1).Append 2)
      (Reachable.append _ _ (Reachable.append _ _ Reachable.fresh))
      [Action.Append 7, Action.Iterate, Action.Append 8, Action.Append 9, Action.Append 10,
       Action.Iterate, Action.PopIfNotEmpty, Action.PopIfNotEmpty, Action.Iterate] 3,
    by decide⟩

/-- C14: in every state reachable from a freshly constructed buffer of capacity
`N` of at least 1, exactly one of these holds: (a) `head_` and `tail_` are both
null, or (b) both are set, `head_` is a slot `h` of the storage, and `tail_` is the
slot reached from `h` by following `next` `k` times for some `k < N`, the run of
`k + 1` slots (between 1 and `N`) being what iteration reads.  In no reachable
state is exactly one cursor set. -/
theorem cursors_both_null_or_valid_run (movedFrom : T → T) (hN : 1 ≤ capacity)
    (b : RingBuffer T capacity) (hb : Reachable movedFrom b) (fuel : Nat)
    (hf : capacity ≤ fuel) :
    ((b.head_ = none ∧ b.tail_ = none) ∨
        (∃ h k, b.head_ = some h ∧ h < capacity ∧ k < capacity ∧
          b.tail_ = some (b.follow k h) ∧ b.follow k h < capacity ∧
          (b.iterate fuel).map List.length = some (k + 1))) ∧
      ¬ ((b.head_ = none ∧ b.tail_ = none) ∧ (∃ h t, b.head_ = some h ∧ b.tail_ = some t)) ∧
      (b.head_ = none ↔ b.tail_ = none) := by
  obtain ⟨l, hr⟩ := reachable_rep movedFrom b hN hb
  have hiter := rep_iterate_of_le b l hN hr fuel hf
  refine ⟨?_, ?_, ?_⟩
  · cases l with
    | nil => exact Or.inl (rep_nil_cursors b hr)
    | cons e r =>
      obtain ⟨h, k, hh, hk, hlen, h1, h2, _⟩ := rep_cons_window b _ hr (by simp)
      refine Or.inr ⟨h, k, h1, hh, hk, ?_, ?_, ?_⟩
      · rw [follow_eq b hN hr.1 h hh k, h2]
      · rw [follow_eq b hN hr.1 h hh k]
        exact Nat.mod_lt _ hN
      · rw [hiter, Option.map_some', hlen]
  · rintro ⟨⟨h1, _⟩, h, _, h2, _⟩
    rw [h1] at h2
    cases h2
  · cases l with
    | nil =>
      obtain ⟨h1, h2⟩ := rep_nil_cursors b hr
      simp [h1, h2]
    | cons e r =>
      obtain ⟨h1, h2⟩ := rep_cons_cursors b e r hr
      exact ⟨fun h => absurd h h1, fun h => absurd h h2⟩

theorem cursors_both_null_or_valid_run_witness :
    1 ≤ 3 ∧
    Reachable id
      ((((((RingBuffer.mk0 Nat 3).Append 1).Append 2).Append 3).PopIfNotEmpty id).2.Append 4) ∧
    3 ≤ 3 ∧
    ((((((RingBuffer.mk0 Nat 3).Append 1).Append 2).Append 3).PopIfNotEmpty id).2.Append
      4).head_ = some 1 ∧
    ((((((RingBuffer.mk0 Nat 3).Append 1).Append 2).Append 3).PopIfNotEmpty id).2.Append
      4).tail_ = some 0 ∧
    (((((((RingBuffer.mk0 Nat 3).Append 1).Append 2).Append 3).PopIfNotEmpty id).2.Append
      4).head_ = none ↔
     ((((((RingBuffer.mk0 Nat 3).Append 1).Append 2).Append 3).PopIfNotEmpty id).2.Append
      4).tail_ = none) :=
  ⟨by decide,
    Reachable.append _ _ (Reachable.pop _
      (Reachable.append _ _ (Reachable.append _ _ (Reachable.append _ _ Reachable.fresh)))),
    by decide, by decide, by decide,
    (cursors_both_null_or_valid_run id (by decide) _
      (Reachable.append _ _ (Reachable.pop _
        (Reachable.append _ _ (Reachable.append _ _ (Reachable.append _ _ Reachable.fresh)))))
      3 (by decide)).2.2⟩

/-- C15: in every reachable non-empty state of a buffer of capacity `N` of at
least 1, the fullness test of `Append`, `tail_->next == head_`, is true if and
only if the buffer holds exactly `N` elements; `Append` moves `head_` to
`head_->next` when the test is true, so exactly at capacity, and leaves `head_`
as it is when the buffer holds fewer than `N` elements. -/
theorem fullness_test_iff_at_capacity (movedFrom : T → T) (hN : 1 ≤ capacity)
    (b : RingBuffer T capacity) (hb : Reachable movedFrom b) (e : T) (rest : List T)
    (fuel0 : Nat) (hit : b.iterate fuel0 = some (e :: rest)) (x : T) :
    (b.tailNextIsHead = true ↔ (e :: rest).length = capacity) ∧
      (b.Append x).head_
        = (if b.tailNextIsHead = true then b.head_.map (fun h => (b.node h).next)
           else b.head_) ∧
      ((e :: rest).length = capacity →
        (b.Append x).head_ = b.head_.map (fun h => (b.node h).next)) ∧
      ((e :: rest).length < capacity → (b.Append x).head_ = b.head_) := by
  have hr := reachable_rep_iterate movedFrom b hN hb _ fuel0 hit
  obtain ⟨h, k, hh, hk, hlen, h1, h2, _⟩ := rep_cons_window b _ hr (by simp)
  have hnext : (b.node ((h + k) % capacity)).next = (h + (k + 1)) % capacity := by
    rw [hr.1.2 _ (Nat.mod_lt _ hN), mod_succ]
  have htest : b.tailNextIsHead = true ↔ (e :: rest).length = capacity := by
    rw [hlen]
    simp only [RingBuffer.tailNextIsHead, h2, h1, hnext, beq_iff_eq, Option.some.injEq]
    constructor
    · intro heq
      by_contra hne
      exact mod_add_ne_self hh (by omega) (by omega) heq
    · intro heq
      rw [heq]
      exact mod_add_cap hh
  have happ : (b.Append x).head_
      = (if b.tailNextIsHead = true then b.head_.map (fun h => (b.node h).next)
         else b.head_) := by
    simp [RingBuffer.Append, RingBuffer.tailNextIsHead, h2]
  refine ⟨htest, happ, ?_, ?_⟩
  · intro hfull
    rw [happ, if_pos (htest.mpr hfull)]
  · intro hlt
    have : ¬ b.tailNextIsHead = true := fun ht => by
      have := htest.mp ht
      omega
    rw [happ, if_neg this]

theorem fullness_test_iff_at_capacity_witness :
    1 ≤ 3 ∧
    Reachable id ((((RingBuffer.mk0 Nat 3).Append 1).Append 2).Append 3) ∧
    ((((RingBuffer.mk0 Nat 3).Append 1).Append 2).Append 3).iterate 3 = some [1, 2, 3] ∧
    (((((RingBuffer.mk0 Nat 3).Append 1).Append 2).Append 3).tailNextIsHead = true ↔
      [1, 2, 3].length = 3) ∧
    ((((RingBuffer.mk0 Nat 3).Append 1).Append 2).Append 3).tailNextIsHead = true ∧
    (((RingBuffer.mk0 Nat 3).Append 1).Append 2).tailNextIsHead = false :=
  ⟨by decide,
    Reachable.append _ _ (Reachable.append _ _ (Reachable.append _ _ Reachable.fresh)),
    by decide,
    (fullness_test_iff_at_capacity id (by decide)
      ((((RingBuffer.mk0 Nat 3).Append 1).Append 2).Append 3)
      (Reachable.append _ _ (Reachable.append _ _ (Reachable.append _ _ Reachable.fresh)))
      1 [2, 3] 3 (by decide) 4).1,
    by decide, by decide⟩

/-- C16: in every reachable state of a buffer of capacity at least 1 whose
iteration sequence is empty (freshly constructed, cleared, or emptied by pops),
wherever the cursors stood before, `Append x` sets `head_` and `tail_` to slot 0,
stores `x` in slot 0 and changes no other slot nor the link of slot 0, and the
resulting state holds exactly the one element `x`. -/
theorem append_on_empty_uses_slot_zero (movedFrom : T → T) (hN : 1 ≤ capacity)
    (b : RingBuffer T capacity) (hb : Reachable movedFrom b) (fuel0 : Nat)
    (hit : b.iterate fuel0 = some []) (x : T) (fuel : Nat) (hf : 1 ≤ fuel) (i : Nat) :
    (b.Append x).head_ = some 0 ∧ (b.Append x).tail_ = some 0 ∧
      ((b.Append x).node 0).data = x ∧
      ((b.Append x).node 0).next = (b.node 0).next ∧
      (i ≠ 0 → (b.Append x).node i = b.node i) ∧
      (b.Append x).iterate fuel = some [x] := by
  have hr := reachable_rep_iterate movedFrom b hN hb _ fuel0 hit
  obtain ⟨_, ht⟩ := rep_nil_cursors b hr
  have hA : b.Append x = { data_ := b.store 0 x, head_ := some 0, tail_ := some 0 } := by
    simp [RingBuffer.Append, ht]
  have hlen : 0 < b.data_.length := by rw [hr.1.1]; exact hN
  have hr2 := rep_append b [] x hN hr
  have e : refAppend capacity ([] : List T) x = [x] := by
    have : ¬ (0 = capacity) := by omega
    simp [refAppend, this]
  rw [e] at hr2
  refine ⟨by rw [hA], by rw [hA], ?_, ?_, ?_, ?_⟩
  · rw [node_of_store b _ 0 x (by rw [hA]) hlen 0, if_pos rfl]
  · rw [node_of_store b _ 0 x (by rw [hA]) hlen 0, if_pos rfl]
  · intro hi
    rw [node_of_store b _ 0 x (by rw [hA]) hlen i, if_neg hi]
  · rw [rep_iterate _ _ hN hr2 fuel, if_pos (by simpa using hf)]

theorem append_on_empty_uses_slot_zero_witness :
    1 ≤ 3 ∧
    Reachable id
      (RingBuffer.popMany id ((RingBuffer.mk0 Nat 3).appendAll [1, 2, 3]) 3).2 ∧
    (RingBuffer.popMany id ((RingBuffer.mk0 Nat 3).appendAll [1, 2, 3]) 3).2.iterate 0
      = some [] ∧
    1 ≤ 3 ∧
    ((RingBuffer.popMany id ((RingBuffer.mk0 Nat 3).appendAll [1, 2, 3]) 2).2.head_
      = some 2) ∧
    ((RingBuffer.popMany id ((RingBuffer.mk0 Nat 3).appendAll [1, 2, 3]) 3).2.Append 9).head_
      = some 0 ∧
    ((RingBuffer.popMany id ((RingBuffer.mk0 Nat 3).appendAll [1, 2, 3]) 3).2.Append 9).tail_
      = some 0 ∧
    ((RingBuffer.popMany id ((RingBuffer.mk0 Nat 3).appendAll [1, 2, 3]) 3).2.Append 9).iterate 3
      = some [9] :=
  ⟨by decide,
    reachable_popMany id 3 _ (reachable_appendAll id [1, 2, 3] _ Reachable.fresh),
    by decide, by decide, by decide,
    (append_on_empty_uses_slot_zero id (by decide)
      (RingBuffer.popMany id ((RingBuffer.mk0 Nat 3).appendAll [1, 2, 3]) 3).2
      (reachable_popMany id 3 _ (reachable_appendAll id [1, 2, 3] _ Reachable.fresh))
      0 (by decide) 9 3 (by decide) 1).1,
    (append_on_empty_uses_slot_zero id (by decide)
      (RingBuffer.popMany id ((RingBuffer.mk0 Nat 3).appendAll [1, 2, 3]) 3).2
      (reachable_popMany id 3 _ (reachable_appendAll id [1, 2, 3] _ Reachable.fresh))
      0 (by decide) 9 3 (by decide) 1).2.1,
    (append_on_empty_uses_slot_zero id (by decide)
      (RingBuffer.popMany id ((RingBuffer.mk0 Nat 3).appendAll [1, 2, 3]) 3).2
      (reachable_popMany id 3 _ (reachable_appendAll id [1, 2, 3] _ Reachable.fresh))
      0 (by decide) 9 3 (by decide) 1).2.2.2.2.2⟩

/-- C17: let `b` be the state a freshly constructed buffer of capacity `N` of at
least 1 reaches after any finite sequence of `Append`, `PopIfNotEmpty` and `Clear`
calls (these are the reachable states), and let `l`, of `k` elements, be the list
the reference bounded queue holds after the same calls.  Then `k ≤ N` and
iteration terminates: the begin-to-end loop reads `l` with every allowance of at
least `k` increments and is still running after fewer, and `operator++` applied
`k` times to `begin()` yields an iterator equal to `end()`.  For every `i < k` the
iterator after `i` increments differs from `end()`, points at the slot reached
from `head_` by following `next` `i` times (the `i`-th slot after `head_` in cyclic
order, no further than `tail_`, the slot reached after `k - 1` steps) and reads
the `i`-th element of `l`. -/
theorem iteration_visits_valid_run (movedFrom : T → T) (hN : 1 ≤ capacity)
    (cs : List (Call T)) (b : RingBuffer T capacity)
    (hb : (RingBuffer.run movedFrom (RingBuffer.mk0 T capacity) cs).2 = b) (l : List T)
    (hl : (refRun capacity [] cs).2 = l) (i : Nat) (fuel : Nat) :
    l.length ≤ capacity ∧
      (l.length ≤ fuel → b.iterate fuel = some l) ∧
      (fuel < l.length → b.iterate fuel = none) ∧
      (b.advance l.length b.begin).operatorEq b.end_ = true ∧
      (i < l.length →
        (b.advance i b.begin).operatorEq b.end_ = false ∧
        (∃ h, b.head_ = some h ∧ h < capacity ∧
          (b.advance i b.begin).head_ = some (b.follow i h) ∧
          b.follow i h = (h + i) % capacity ∧
          b.tail_ = some (b.follow (l.length - 1) h)) ∧
        l[i]? = some ((b.advance i b.begin).operatorStar b)) := by
  have hr := (run_refines movedFrom hN cs _ _ (rep_mk0 T capacity)).2
  rw [hb, hl] at hr
  have hiter := rep_iterate b l hN hr fuel
  refine ⟨rep_length_le b l hr, fun hle => by rw [hiter, if_pos hle],
    fun hlt => by rw [hiter, if_neg (by omega)], ?_, ?_⟩
  · cases l with
    | nil =>
      obtain ⟨h1, h2⟩ := rep_nil_cursors b hr
      simp [RingBuffer.advance, RingBuffer.begin, RingBuffer.end_,
        RingBufferIterator.operatorEq, h1, h2]
    | cons e r =>
      obtain ⟨h, k, hh, hk, hlen, h1, h2, _⟩ := rep_cons_window b _ hr (by simp)
      have hbegin : b.begin =
          { buffer_ := some (), head_ := some h, tail_ := some ((h + k) % capacity) } := by
        simp [RingBuffer.begin, h1, h2]
      rw [hlen, hbegin, advance_window_end b hN hr.1 h k hh hk]
      simp [RingBufferIterator.operatorEq]
  · intro hi
    have hne : l ≠ [] := by
      intro h0
      rw [h0] at hi
      exact Nat.not_lt_zero _ hi
    obtain ⟨h, k, hh, hk, hlen, h1, h2, hl2⟩ := rep_cons_window b _ hr hne
    have hbegin : b.begin =
        { buffer_ := some (), head_ := some h, tail_ := some ((h + k) % capacity) } := by
      simp [RingBuffer.begin, h1, h2]
    have hadv := advance_window b hN hr.1 h k hh hk i (by omega)
    rw [hbegin, hadv]
    refine ⟨?_, ⟨h, h1, hh, ?_, follow_eq b hN hr.1 h hh i, ?_⟩, ?_⟩
    · simp [RingBufferIterator.operatorEq, RingBuffer.end_]
    · rw [follow_eq b hN hr.1 h hh i]
    · rw [follow_eq b hN hr.1 h hh _, hlen, Nat.add_sub_cancel, h2]
    · have hstar : RingBufferIterator.operatorStar b
          { buffer_ := some (), head_ := some ((h + i) % capacity),
            tail_ := some ((h + k) % capacity) } = slotVal b h i := rfl
      rw [hstar, hl2, List.getElem?_map, List.getElem?_range (by omega)]
      rfl

theorem iteration_visits_valid_run_witness :
    1 ≤ 3 ∧
    (RingBuffer.run id (RingBuffer.mk0 Nat 3)
      [Call.Append 1, Call.Append 2, Call.Append 3, Call.PopIfNotEmpty, Call.Append 4]).2
      = ((((((RingBuffer.mk0 Nat 3).Append 1).Append 2).Append 3).PopIfNotEmpty id).2.Append
          4) ∧
    (refRun 3 [] [Call.Append 1, Call.Append 2, Call.Append 3, Call.PopIfNotEmpty,
      Call.Append 4]).2 = [2, 3, 4] ∧
    ((((((RingBuffer.mk0 Nat 3).Append 1).Append 2).Append 3).PopIfNotEmpty id).2.Append
      4).iterate 3 = some [2, 3, 4] ∧
    ((((((RingBuffer.mk0 Nat 3).Append 1).Append 2).Append 3).PopIfNotEmpty id).2.Append
      4).iterate 2 = none ∧
    (((((((RingBuffer.mk0 Nat 3).Append 1).Append 2).Append 3).PopIfNotEmpty id).2.Append
      4).advance 3
      ((((((RingBuffer.mk0 Nat 3).Append 1).Append 2).Append 3).PopIfNotEmpty id).2.Append
        4).begin).operatorEq
      ((((((RingBuffer.mk0 Nat 3).Append 1).Append 2).Append 3).PopIfNotEmpty id).2.Append
        4).end_ = true ∧
    (((((((RingBuffer.mk0 Nat 3).Append 1).Append 2).Append 3).PopIfNotEmpty id).2.Append
      4).advance 2
      ((((((RingBuffer.mk0 Nat 3).Append 1).Append 2).Append 3).PopIfNotEmpty id).2.Append
        4).begin).head_ = some 0 ∧
    (((((((RingBuffer.mk0 Nat 3).Append 1).Append 2).Append 3).PopIfNotEmpty id).2.Append
      4).advance 2
      ((((((RingBuffer.mk0 Nat 3).Append 1).Append 2).Append 3).PopIfNotEmpty id).2.Append
        4).begin).operatorEq
      ((((((RingBuffer.mk0 Nat 3).Append 1).Append 2).Append 3).PopIfNotEmpty id).2.Append
        4).end_ = false :=
  ⟨by decide, rfl, rfl,
    (iteration_visits_valid_run id (by decide)
      [Call.Append 1, Call.Append 2, Call.Append 3, Call.PopIfNotEmpty, Call.Append 4]
      ((((((RingBuffer.mk0 Nat 3).Append 1).Append 2).Append 3).PopIfNotEmpty id).2.Append 4)
      rfl [2, 3, 4] rfl 2 3).2.1 (by decide),
    (iteration_visits_valid_run id (by decide)
      [Call.Append 1, Call.Append 2, Call.Append 3, Call.PopIfNotEmpty, Call.Append 4]
      ((((((RingBuffer.mk0 Nat 3).Append 1).Append 2).Append 3).PopIfNotEmpty id).2.Append 4)
      rfl [2, 3, 4] rfl 2 2).2.2.1 (by decide),
    (iteration_visits_valid_run id (by decide)
      [Call.Append 1, Call.Append 2, Call.Append 3, Call.PopIfNotEmpty, Call.Append 4]
      ((((((RingBuffer.mk0 Nat 3).Append 1).Append 2).Append 3).PopIfNotEmpty id).2.Append 4)
      rfl [2, 3, 4] rfl 2 3).2.2.2.1,
    by decide,
    ((iteration_visits_valid_run id (by decide)
      [Call.Append 1, Call.Append 2, Call.Append 3, Call.PopIfNotEmpty, Call.Append 4]
      ((((((RingBuffer.mk0 Nat 3).Append 1).Append 2).Append 3).PopIfNotEmpty id).2.Append 4)
      rfl [2, 3, 4] rfl 2 3).2.2.2.2 (by decide)).1⟩

/-- C18: for capacity 1, where slot 0 is its own `next`, from every reachable
state and for every value `x`, `Append x` leaves a state whose iteration sequence
is exactly `[x]` with `head_` and `tail_` at slot 0, and the following
`PopIfNotEmpty` returns `x` and empties the buffer. -/
theorem capacity_one_append_replaces (movedFrom : T → T) (b : RingBuffer T 1)
    (hb : Reachable movedFrom b) (x : T) (fuel : Nat) (hf : 1 ≤ fuel) :
    (b.Append x).iterate fuel = some [x] ∧
      (b.Append x).head_ = some 0 ∧ (b.Append x).tail_ = some 0 ∧
      ((RingBuffer.mk0 T 1).node 0).next = 0 ∧
      ((b.Append x).PopIfNotEmpty movedFrom).1 = some x ∧
      ((b.Append x).PopIfNotEmpty movedFrom).2.head_ = none ∧
      ((b.Append x).PopIfNotEmpty movedFrom).2.tail_ = none ∧
      ((b.Append x).PopIfNotEmpty movedFrom).2.iterate fuel = some [] := by
  have hN : 0 < 1 := Nat.one_pos
  obtain ⟨l, hr⟩ := reachable_rep movedFrom b hN hb
  have hlen := rep_length_le b l hr
  have e : refAppend 1 l x = [x] := by
    unfold refAppend
    cases l with
    | nil => rfl
    | cons a r =>
      cases r with
      | nil => rfl
      | cons a2 r2 =>
        simp at hlen
  have hr2 := rep_append b l x hN hr
  rw [e] at hr2
  obtain ⟨h, k, hh, hk, _, h1, h2, _⟩ := rep_cons_window _ _ hr2 (by simp)
  have hh0 : h = 0 := by omega
  have hk0 : k = 0 := by omega
  subst hh0 hk0
  obtain ⟨h3, h4⟩ := rep_pop movedFrom _ _ hN hr2
  rw [List.tail_cons] at h4
  obtain ⟨h5, h6⟩ := rep_nil_cursors _ h4
  refine ⟨?_, h1, h2, ?_, h3, h5, h6, ?_⟩
  · rw [rep_iterate _ _ hN hr2 fuel, if_pos (by simpa using hf)]
  · exact (wellLinked_mk0 T 1).2 0 hN
  · rw [rep_iterate _ _ hN h4 fuel]
    simp

theorem capacity_one_append_replaces_witness :
    Reachable id (((RingBuffer.mk0 Nat 1).Append 5).Append 6) ∧ 1 ≤ 1 ∧
    ((((RingBuffer.mk0 Nat 1).Append 5).Append 6).Append 7).iterate 1 = some [7] ∧
    ((((RingBuffer.mk0 Nat 1).Append 5).Append 6).Append 7).head_ = some 0 ∧
    ((((RingBuffer.mk0 Nat 1).Append 5).Append 6).Append 7).tail_ = some 0 ∧
    ((RingBuffer.mk0 Nat 1).node 0).next = 0 ∧
    (((((RingBuffer.mk0 Nat 1).Append 5).Append 6).Append 7).PopIfNotEmpty id).1 = some 7 ∧
    (((((RingBuffer.mk0 Nat 1).Append 5).Append 6).Append 7).PopIfNotEmpty id).2.head_ = none ∧
    (((((RingBuffer.mk0 Nat 1).Append 5).Append 6).Append 7).PopIfNotEmpty id).2.tail_ = none ∧
    (((((RingBuffer.mk0 Nat 1).Append 5).Append 6).Append 7).PopIfNotEmpty id).2.iterate 1
      = some [] :=
  ⟨Reachable.append _ _ (Reachable.append _ _ Reachable.fresh), by decide,
    capacity_one_append_replaces id (((RingBuffer.mk0 Nat 1).Append 5).Append 6)
      (Reachable.append _ _ (Reachable.append _ _ Reachable.fresh)) 7 1 (by decide)⟩

end Claims

end grpc_core
